import Mathlib

/-!
# Verification of the `str-iter` string iterators

Shallow embedding of `src/lib.rs`. A Rust `&str` is modelled as its UTF-8
byte sequence, a `List Nat`; a `char` is a Lean `Char`. The Rust code can
panic (byte slicing off a character boundary, `usize` subtraction underflow,
`Option::unwrap` on `None`), so every fallible operation returns
`Except RPanic`. Emitted views are the byte lists of the corresponding
sub-slices.
-/

/-- The panics the modelled Rust code can raise. -/
inductive RPanic where
  /-- A `&s[i..j]` slice whose bounds are out of range, inverted, or off a
  character boundary. -/
  | sliceFault
  /-- A `usize` subtraction underflow (`self.l - self.needle_len` with
  `needle_len > l`); in release builds it wraps and the following slice is out
  of range, so it panics either way. -/
  | subUnderflow
  /-- `Option::unwrap` applied to `None` (`chars().next().unwrap()`). -/
  | unwrapNone
  deriving DecidableEq, Repr

/-- Model of `str::is_char_boundary`: true at 0 and at the length, and
elsewhere exactly when the byte at `i` is not a UTF-8 continuation byte. -/
def isCharBoundaryB (bs : List Nat) (i : Nat) : Bool :=
  i == 0 ||
    match bs[i]? with
    | some b => decide (b < 0x80 ∨ 0xC0 ≤ b)
    | none => i == bs.length

/-- Model of Rust slicing `&s[i..j]`: panics unless `i ≤ j ≤ s.len()` and both
ends lie on character boundaries. -/
def strSlice (bs : List Nat) (i j : Nat) : Except RPanic (List Nat) :=
  if i ≤ j ∧ j ≤ bs.length ∧ isCharBoundaryB bs i ∧ isCharBoundaryB bs j then
    Except.ok ((bs.drop i).take (j - i))
  else Except.error RPanic.sliceFault

/-- UTF-8 encoding of one Unicode scalar value, as in `char::encode_utf8`. -/
def encodeChar (c : Char) : List Nat :=
  let v := c.toNat
  if v < 0x80 then [v]
  else if v < 0x800 then [0xC0 + v / 64, 0x80 + v % 64]
  else if v < 0x10000 then [0xE0 + v / 4096, 0x80 + v / 64 % 64, 0x80 + v % 64]
  else [0xF0 + v / 262144, 0x80 + v / 4096 % 64, 0x80 + v / 64 % 64, 0x80 + v % 64]

/-- UTF-8 encoding of a character sequence: the byte content of a `&str`. -/
def encodeStr (cs : List Char) : List Nat := (cs.map encodeChar).flatten

deriving instance DecidableEq for Except

/-- Is `b` a UTF-8 continuation byte? -/
def isContByte (b : Nat) : Bool := decide (0x80 ≤ b ∧ b < 0xC0)

/-- Model of `s[i..].chars().next()`: decode the scalar value starting the
byte list together with its encoded width. `none` stands for byte shapes that
cannot occur at a character boundary of a valid `&str` (where the iterator
would be empty and `unwrap` would panic). -/
def decodeCharAt : List Nat → Option (Nat × Nat)
  | [] => none
  | b0 :: rest =>
    if b0 < 0x80 then some (b0, 1)
    else if b0 < 0xC0 then none
    else if b0 < 0xE0 then
      match rest with
      | b1 :: _ =>
        if isContByte b1 then some ((b0 - 0xC0) * 64 + (b1 - 0x80), 2) else none
      | [] => none
    else if b0 < 0xF0 then
      match rest with
      | b1 :: b2 :: _ =>
        if isContByte b1 ∧ isContByte b2 then
          some ((b0 - 0xE0) * 4096 + (b1 - 0x80) * 64 + (b2 - 0x80), 3)
        else none
      | _ => none
    else if b0 < 0xF8 then
      match rest with
      | b1 :: b2 :: b3 :: _ =>
        if isContByte b1 ∧ isContByte b2 ∧ isContByte b3 then
          some ((b0 - 0xF0) * 262144 + (b1 - 0x80) * 4096 + (b2 - 0x80) * 64
            + (b3 - 0x80), 4)
        else none
      | _ => none
    else none

/-- Model of `SubstrIterator` from `src/lib.rs`. -/
structure SubstrIterator where
  /-- The source buffer `s: &'a str`, as bytes. -/
  s : List Nat
  /-- The needle `needle: &'a str`, as bytes. -/
  needle : List Nat
  /-- Cached buffer length `l: usize`. -/
  l : Nat
  /-- Cached needle length `needle_len: usize`. -/
  needle_len : Nat
  /-- The cursor `start: usize`. -/
  start : Nat
  /-- The `emit_all: bool` mode flag. -/
  emit_all : Bool
  deriving DecidableEq, Repr

/-- Model of `str::substr_iter`. -/
def substr_iter (s needle : List Nat) : SubstrIterator :=
  { s := s, needle := needle, l := s.length, needle_len := needle.length,
    start := 0, emit_all := false }

/-- Model of `SubstrIterator::all`. -/
def SubstrIterator.all (it : SubstrIterator) : SubstrIterator :=
  { it with emit_all := true }

/-- Model of `SubstrIterator::reset`. -/
def SubstrIterator.reset (it : SubstrIterator) : SubstrIterator :=
  { it with start := 0 }

/-- Model of `SubstrIterator::next_char`. -/
def SubstrIterator.next_char (it : SubstrIterator) :
    Except RPanic (Option (List Nat) × SubstrIterator) :=
  if it.l = 0 ∨ it.start = it.l then Except.ok (none, it)
  else
    match strSlice it.s it.start it.s.length with
    | Except.error e => Except.error e
    | Except.ok rest =>
      match decodeCharAt rest with
      | none => Except.error RPanic.unwrapNone
      | some (_, w) =>
        match strSlice it.s it.start (it.start + w) with
        | Except.error e => Except.error e
        | Except.ok v => Except.ok (some v, { it with start := it.start + w })

/-- Model of the code in `SubstrIterator::next` after its `for` loop, using
the loop's final `start` and `has_match` values. -/
def substrFinish (s needle : List Nat) (l nl : Nat) (ea : Bool) (start : Nat)
    (hm : Bool) : Except RPanic (Option (List Nat) × Nat) :=
  if ¬hm then
    if ¬ea then Except.ok (none, start)
    else if nl > l then Except.error RPanic.subUnderflow
    else
      match strSlice s (l - nl) s.length with
      | Except.error e => Except.error e
      | Except.ok suf =>
        if suf ≠ needle then Except.ok (none, start)
        else
          match strSlice s start s.length with
          | Except.error e => Except.error e
          | Except.ok v => Except.ok (some v, l + 1)
  else
    match strSlice s start s.length with
    | Except.error e => Except.error e
    | Except.ok v => Except.ok (some v, start + l)

/-- Model of the `for i in self.start..self.l` loop of `SubstrIterator::next`.
`fuel` only bounds the iteration count; it is always called with
`fuel = l - i`, so the guard `i < l ∧ i + nl ≤ l` mirrors the Rust range and
`break` conditions exactly. Returns the emitted view (if any) and the final
cursor. -/
def substrLoop (s needle : List Nat) (l nl : Nat) (ea : Bool) :
    Nat → Nat → Nat → Bool → Except RPanic (Option (List Nat) × Nat)
  | 0, _, start, hm => substrFinish s needle l nl ea start hm
  | fuel + 1, i, start, hm =>
    if i < l ∧ i + nl ≤ l then
      match strSlice s i (i + nl) with
      | Except.error e => Except.error e
      | Except.ok seg =>
        if seg ≠ needle then
          if hm then substrLoop s needle l nl ea fuel (i + 1) start true
          else substrLoop s needle l nl ea fuel (i + 1) i true
        else if ¬ea ∧ ¬hm then substrLoop s needle l nl ea fuel (i + 1) i false
        else
          match strSlice s start i with
          | Except.error e => Except.error e
          | Except.ok v => Except.ok (some v, i + nl)
    else substrFinish s needle l nl ea start hm

/-- Model of `<SubstrIterator as Iterator>::next`. -/
def SubstrIterator.next (it : SubstrIterator) :
    Except RPanic (Option (List Nat) × SubstrIterator) :=
  if it.start > it.l then Except.ok (none, it)
  else if it.needle_len = 0 then it.next_char
  else if it.l = 0 then
    if ¬it.emit_all then Except.ok (none, it)
    else Except.ok (some it.s, { it with start := it.l + 1 })
  else
    match substrLoop it.s it.needle it.l it.needle_len it.emit_all
        (it.l - it.start) it.start it.start false with
    | Except.error e => Except.error e
    | Except.ok (v, start') => Except.ok (v, { it with start := start' })

/-- Model of `FuncIterator` from `src/lib.rs`. -/
structure FuncIterator where
  /-- The separator predicate `f: fn(char) -> bool`. -/
  f : Char → Bool
  /-- The source buffer `s: &'a str`, as bytes. -/
  s : List Nat
  /-- Cached buffer length `l: usize`. -/
  l : Nat
  /-- The cursor `start: usize`. -/
  start : Nat

/-- Model of `str::func_iter`. -/
def func_iter (s : List Nat) (f : Char → Bool) : FuncIterator :=
  { f := f, s := s, l := s.length, start := 0 }

/-- Model of Rust `char::is_alphanumeric` (a `std` function outside this
repository). Rust's version uses the full Unicode tables; this model uses
Lean's ASCII `Char.isAlphanum`, which agrees with it on every ASCII character
and hence on all inputs the repository exercises it with. -/
def isAlphanumeric (c : Char) : Bool := c.isAlphanum

/-- Model of `word_iter` / `str::word_iter`. -/
def word_iter (s : List Nat) : FuncIterator :=
  func_iter s (fun c => ! isAlphanumeric c)

/-- Model of `FuncIterator::reset`. -/
def FuncIterator.reset (it : FuncIterator) : FuncIterator :=
  { it with start := 0 }

/-- Model of the code in `FuncIterator::next` after its `while` loop. -/
def funcFinish (s : List Nat) (l start : Nat) (hm : Bool) :
    Except RPanic (Option (List Nat) × Nat) :=
  if hm ∧ start < l then
    match strSlice s start s.length with
    | Except.error e => Except.error e
    | Except.ok v => Except.ok (some v, start + (l - start))
  else Except.ok (none, start)

/-- Model of the `while i < self.l` loop of `FuncIterator::next`. `fuel` only
bounds the iteration count; each iteration advances `i` by the decoded width
`w ≥ 1`, so any `fuel ≥ l - i` gives the loop's exact behaviour. -/
def funcLoop (f : Char → Bool) (s : List Nat) (l : Nat) :
    Nat → Nat → Nat → Bool → Except RPanic (Option (List Nat) × Nat)
  | 0, _, start, hm => funcFinish s l start hm
  | fuel + 1, i, start, hm =>
    if i < l then
      match strSlice s i s.length with
      | Except.error e => Except.error e
      | Except.ok rest =>
        match decodeCharAt rest with
        | none => Except.error RPanic.unwrapNone
        | some (v, w) =>
          if f (Char.ofNat v) then
            if hm then
              match strSlice s start i with
              | Except.error e => Except.error e
              | Except.ok seg => Except.ok (some seg, i + w)
            else funcLoop f s l fuel (i + w) (i + w) false
          else if ¬hm then funcLoop f s l fuel (i + w) i true
          else funcLoop f s l fuel (i + w) start true
    else funcFinish s l start hm

/-- Model of `<FuncIterator as Iterator>::next`. -/
def FuncIterator.next (it : FuncIterator) :
    Except RPanic (Option (List Nat) × FuncIterator) :=
  if it.start = it.l then Except.ok (none, it)
  else
    match funcLoop it.f it.s it.l (it.l - it.start) it.start it.start false with
    | Except.error e => Except.error e
    | Except.ok (v, start') => Except.ok (v, { it with start := start' })

/-- Pull `next` up to `fuel` times, collecting the emitted views in order and
stopping at the first exhausted (`none`) answer. -/
def substrCollect : SubstrIterator → Nat → Except RPanic (List (List Nat))
  | _, 0 => Except.ok []
  | it, fuel + 1 =>
    match it.next with
    | Except.error e => Except.error e
    | Except.ok (none, _) => Except.ok []
    | Except.ok (some v, it') =>
      match substrCollect it' fuel with
      | Except.error e => Except.error e
      | Except.ok vs => Except.ok (v :: vs)

/-- Pull `next` up to `fuel` times on a `FuncIterator`, collecting the views. -/
def funcCollect : FuncIterator → Nat → Except RPanic (List (List Nat))
  | _, 0 => Except.ok []
  | it, fuel + 1 =>
    match it.next with
    | Except.error e => Except.error e
    | Except.ok (none, _) => Except.ok []
    | Except.ok (some v, it') =>
      match funcCollect it' fuel with
      | Except.error e => Except.error e
      | Except.ok vs => Except.ok (v :: vs)

/-- Spec-side definition: verbatim split of `bs` at the leftmost,
non-overlapping occurrences of `needle` (the conventional standard-library
`split`). The fuel is always at least the list length, so the structural
recursion follows each occurrence by skipping `needle.length` bytes. -/
def splitSeqAux (needle : List Nat) : Nat → List Nat → List (List Nat)
  | _, [] => [[]]
  | 0, bs => [bs]
  | fuel + 1, b :: t =>
    if needle.isPrefixOf (b :: t) then
      [] :: splitSeqAux needle fuel (t.drop (needle.length - 1))
    else
      match splitSeqAux needle fuel t with
      | [] => [[b]]
      | h :: r => (b :: h) :: r

/-- Spec-side: standard split of a byte buffer by a needle. -/
def splitSeq (needle bs : List Nat) : List (List Nat) := splitSeqAux needle bs.length bs

/-- Spec-side definition: verbatim split of a character list at the
predicate-true (separator) characters. -/
def splitP (p : Char → Bool) : List Char → List (List Char)
  | [] => [[]]
  | c :: t =>
    if p c then [] :: splitP p t
    else
      match splitP p t with
      | [] => [[c]]
      | h :: r => (c :: h) :: r

-- Sanity checks of the model against the crate's unit tests.
example : substrCollect (substr_iter [104, 101, 108, 108, 111, 32, 32, 119, 111, 114, 108, 100] [32]) 14 =
    Except.ok [[104, 101, 108, 108, 111], [119, 111, 114, 108, 100]] := by decide

example : funcCollect (word_iter [49, 32, 50, 32, 51, 32, 97, 32, 98, 32, 99]) 12 =
    Except.ok [[49], [50], [51], [97], [98], [99]] := by decide

/-! ## Encoding, boundary and slicing facts -/

theorem char_toNat_lt (c : Char) : c.toNat < 0x110000 := by
  rcases c.valid with h | h
  · exact Nat.lt_trans h (by norm_num)
  · exact h.2

theorem encodeChar_eq_one (c : Char) (h : c.toNat < 0x80) :
    encodeChar c = [c.toNat] := by
  simp [encodeChar, h]

theorem encodeChar_eq_two (c : Char) (h1 : 0x80 ≤ c.toNat) (h2 : c.toNat < 0x800) :
    encodeChar c = [0xC0 + c.toNat / 64, 0x80 + c.toNat % 64] := by
  simp only [encodeChar]
  rw [if_neg (by omega), if_pos h2]

theorem encodeChar_eq_three (c : Char) (h1 : 0x800 ≤ c.toNat) (h2 : c.toNat < 0x10000) :
    encodeChar c = [0xE0 + c.toNat / 4096, 0x80 + c.toNat / 64 % 64, 0x80 + c.toNat % 64] := by
  simp only [encodeChar]
  rw [if_neg (by omega), if_neg (by omega), if_pos h2]

theorem encodeChar_eq_four (c : Char) (h1 : 0x10000 ≤ c.toNat) :
    encodeChar c = [0xF0 + c.toNat / 262144, 0x80 + c.toNat / 4096 % 64,
      0x80 + c.toNat / 64 % 64, 0x80 + c.toNat % 64] := by
  simp only [encodeChar]
  rw [if_neg (by omega), if_neg (by omega), if_neg (by omega)]

theorem encodeChar_length_pos (c : Char) : 0 < (encodeChar c).length := by
  rcases Nat.lt_or_ge c.toNat 0x80 with h | h1
  · simp [encodeChar_eq_one c h]
  rcases Nat.lt_or_ge c.toNat 0x800 with h2 | h2
  · simp [encodeChar_eq_two c h1 h2]
  rcases Nat.lt_or_ge c.toNat 0x10000 with h3 | h3
  · simp [encodeChar_eq_three c h2 h3]
  · simp [encodeChar_eq_four c h3]

theorem decodeCharAt_encodeChar (c : Char) (rest : List Nat) :
    decodeCharAt (encodeChar c ++ rest) = some (c.toNat, (encodeChar c).length) := by
  have hv := char_toNat_lt c
  rcases Nat.lt_or_ge c.toNat 0x80 with h1 | h1
  · rw [encodeChar_eq_one c h1]
    simp [decodeCharAt, h1]
  rcases Nat.lt_or_ge c.toNat 0x800 with h2 | h2
  · rw [encodeChar_eq_two c h1 h2]
    have hd : c.toNat / 64 < 32 := by omega
    simp only [decodeCharAt, List.cons_append, isContByte]
    rw [if_neg (by omega), if_neg (by omega), if_pos (by omega),
      if_pos (by simp; omega)]
    simp
    omega
  rcases Nat.lt_or_ge c.toNat 0x10000 with h3 | h3
  · rw [encodeChar_eq_three c h2 h3]
    have hd : c.toNat / 4096 < 16 := by omega
    simp only [decodeCharAt, List.cons_append, isContByte]
    rw [if_neg (by omega), if_neg (by omega), if_neg (by omega), if_pos (by omega),
      if_pos (by constructor <;> simp <;> omega)]
    simp
    omega
  · rw [encodeChar_eq_four c h3]
    have hd : c.toNat / 262144 < 5 := by omega
    simp only [decodeCharAt, List.cons_append, isContByte]
    rw [if_neg (by omega), if_neg (by omega), if_neg (by omega), if_neg (by omega),
      if_pos (by omega), if_pos (by refine ⟨by simp; omega, by simp; omega, by simp; omega⟩)]
    simp
    omega

theorem encodeChar_shape (c : Char) :
    ∃ b t, encodeChar c = b :: t ∧ isContByte b = false ∧ ∀ x ∈ t, isContByte x = true := by
  rcases Nat.lt_or_ge c.toNat 0x80 with h1 | h1
  · exact ⟨c.toNat, [], encodeChar_eq_one c h1, by simp [isContByte]; try omega, by simp⟩
  rcases Nat.lt_or_ge c.toNat 0x800 with h2 | h2
  · refine ⟨_, _, encodeChar_eq_two c h1 h2, by simp [isContByte]; try omega, ?_⟩
    intro x hx
    simp at hx
    simp [isContByte, hx]
    omega
  rcases Nat.lt_or_ge c.toNat 0x10000 with h3 | h3
  · refine ⟨_, _, encodeChar_eq_three c h2 h3, by simp [isContByte]; try omega, ?_⟩
    intro x hx
    simp at hx
    rcases hx with hx | hx <;> simp [isContByte, hx] <;> omega
  · refine ⟨_, _, encodeChar_eq_four c h3, by simp [isContByte]; try omega, ?_⟩
    intro x hx
    simp at hx
    rcases hx with hx | hx | hx <;> simp [isContByte, hx] <;> omega

theorem encodeStr_nil : encodeStr [] = [] := rfl

theorem encodeStr_cons (c : Char) (cs : List Char) :
    encodeStr (c :: cs) = encodeChar c ++ encodeStr cs := by
  simp [encodeStr]

theorem encodeStr_append (xs ys : List Char) :
    encodeStr (xs ++ ys) = encodeStr xs ++ encodeStr ys := by
  simp [encodeStr]

theorem isCharBoundaryB_zero (bs : List Nat) : isCharBoundaryB bs 0 = true := by
  simp [isCharBoundaryB]

theorem isCharBoundaryB_length (bs : List Nat) : isCharBoundaryB bs bs.length = true := by
  simp [isCharBoundaryB]

theorem isCharBoundaryB_le (bs : List Nat) (i : Nat) (h : isCharBoundaryB bs i = true) :
    i ≤ bs.length := by
  by_contra hc
  push_neg at hc
  have h1 : bs[i]? = none := by
    rw [List.getElem?_eq_none_iff]
    omega
  simp [isCharBoundaryB, h1] at h
  omega

theorem isCharBoundaryB_encodeStr_prefixLen (pre suf : List Char) :
    isCharBoundaryB (encodeStr (pre ++ suf)) (encodeStr pre).length = true := by
  cases suf with
  | nil => rw [List.append_nil]; exact isCharBoundaryB_length _
  | cons c t =>
    obtain ⟨b, tl, hbt, hb, -⟩ := encodeChar_shape c
    have hget : (encodeStr (pre ++ c :: t))[(encodeStr pre).length]? = some b := by
      rw [encodeStr_append, encodeStr_cons, hbt]
      rw [List.getElem?_append_right (by omega)]
      simp
    simp only [isCharBoundaryB, hget]
    simp [isContByte] at hb
    simp
    omega

theorem isCharBoundaryB_append_right (xs ys : List Nat) (k : Nat)
    (h : isCharBoundaryB (xs ++ ys) (xs.length + k) = true) :
    isCharBoundaryB ys k = true := by
  rcases Nat.eq_zero_or_pos k with rfl | hk
  · exact isCharBoundaryB_zero ys
  rcases Nat.lt_or_ge k ys.length with hlt | hge
  · have hget : (xs ++ ys)[xs.length + k]? = ys[k]? := by
      rw [List.getElem?_append_right (by omega)]
      congr 1
      omega
    simp only [isCharBoundaryB, hget] at h
    simp only [isCharBoundaryB]
    rcases h2 : ys[k]? with - | b
    · simp [List.getElem?_eq_none_iff] at h2; omega
    · rw [h2] at h
      simp only [isCharBoundaryB, h2]
      simp at h ⊢
      tauto
  · have hle := isCharBoundaryB_le _ _ h
    simp at hle
    have : k = ys.length := by omega
    subst this
    exact isCharBoundaryB_length ys

theorem boundary_decomp (cs : List Char) : ∀ (i : Nat),
    isCharBoundaryB (encodeStr cs) i = true →
    ∃ pre suf, cs = pre ++ suf ∧ i = (encodeStr pre).length := by
  induction cs with
  | nil =>
    intro i h
    have := isCharBoundaryB_le _ _ h
    simp [encodeStr_nil] at this
    exact ⟨[], [], by simp, by simp [encodeStr_nil, this]⟩
  | cons c t ih =>
    intro i h
    rcases Nat.eq_zero_or_pos i with rfl | hi
    · exact ⟨[], c :: t, by simp, by simp [encodeStr_nil]⟩
    obtain ⟨b, tl, hbt, -, htl⟩ := encodeChar_shape c
    have hw : (encodeChar c).length = tl.length + 1 := by rw [hbt]; simp
    rcases Nat.lt_or_ge i (encodeChar c).length with hlt | hge
    · -- i points into the tail of the first character: a continuation byte
      exfalso
      obtain ⟨j, rfl⟩ : ∃ j, i = j + 1 := ⟨i - 1, by omega⟩
      have hjlt : j < tl.length := by
        rw [hbt] at hlt; simp at hlt; omega
      have hget : (encodeStr (c :: t))[j + 1]? = some (tl[j]) := by
        rw [encodeStr_cons, hbt]
        rw [List.getElem?_append, if_pos (by rw [hbt] at hlt; simpa using hlt)]
        rw [List.getElem?_cons_succ]
        exact List.getElem?_eq_getElem hjlt
      have hcont := htl (tl[j]) (List.getElem_mem hjlt)
      simp only [isCharBoundaryB, hget] at h
      simp [isContByte] at hcont
      simp at h
      omega
    · have h2 : isCharBoundaryB (encodeStr t) (i - (encodeChar c).length) = true := by
        apply isCharBoundaryB_append_right (encodeChar c) (encodeStr t)
        rw [← encodeStr_cons]
        have : (encodeChar c).length + (i - (encodeChar c).length) = i := by omega
        rw [this]
        exact h
      obtain ⟨pre, suf, hps, hlen⟩ := ih _ h2
      refine ⟨c :: pre, suf, by simp [hps], ?_⟩
      rw [encodeStr_cons]
      simp
      omega

theorem strSlice_encodeStr_sub (A B C : List Char) :
    strSlice (encodeStr (A ++ B ++ C)) (encodeStr A).length
      ((encodeStr A).length + (encodeStr B).length) = Except.ok (encodeStr B) := by
  have hb1 : isCharBoundaryB (encodeStr (A ++ B ++ C)) (encodeStr A).length = true := by
    have := isCharBoundaryB_encodeStr_prefixLen A (B ++ C)
    rwa [← List.append_assoc] at this
  have hb2 : isCharBoundaryB (encodeStr (A ++ B ++ C)) ((encodeStr A).length + (encodeStr B).length) = true := by
    have := isCharBoundaryB_encodeStr_prefixLen (A ++ B) C
    rwa [encodeStr_append A B, List.length_append] at this
  rw [strSlice, if_pos]
  · congr 1
    rw [encodeStr_append, encodeStr_append, List.append_assoc, List.drop_left]
    rw [Nat.add_sub_cancel_left, List.take_left]
  · refine ⟨by omega, ?_, hb1, hb2⟩
    rw [encodeStr_append, encodeStr_append, List.length_append, List.length_append]
    omega

theorem strSlice_ok_decomp (cs : List Char) (i j : Nat) (v : List Nat)
    (h : strSlice (encodeStr cs) i j = Except.ok v) :
    ∃ A B C, cs = A ++ B ++ C ∧ v = encodeStr B ∧
      i = (encodeStr A).length ∧ j = (encodeStr A).length + (encodeStr B).length := by
  rw [strSlice] at h
  split at h
  case isFalse => exact absurd h (by simp)
  case isTrue hc =>
    obtain ⟨hij, hjl, hbi, hbj⟩ := hc
    obtain ⟨A, rest, rfl, rfl⟩ := boundary_decomp cs _ hbi
    have hbj' : isCharBoundaryB (encodeStr rest) (j - (encodeStr A).length) = true := by
      apply isCharBoundaryB_append_right (encodeStr A) (encodeStr rest)
      rw [← encodeStr_append]
      have : (encodeStr A).length + (j - (encodeStr A).length) = j := by omega
      rwa [this]
    obtain ⟨B, C, rfl, hlen⟩ := boundary_decomp rest _ hbj'
    refine ⟨A, B, C, by simp, ?_, rfl, by omega⟩
    have hv : v = ((encodeStr (A ++ (B ++ C))).drop (encodeStr A).length).take
        (j - (encodeStr A).length) := by
      simpa using h.symm
    rw [hv, encodeStr_append, List.drop_left, hlen, encodeStr_append, List.take_left]

theorem decodeCharAt_width (bs : List Nat) (v w : Nat)
    (h : decodeCharAt bs = some (v, w)) : 0 < w ∧ w ≤ bs.length := by
  cases bs with
  | nil => simp [decodeCharAt] at h
  | cons b0 rest =>
    simp only [decodeCharAt] at h
    split_ifs at h with h1 h2 h3 h4
    · simp only [Option.some.injEq, Prod.mk.injEq] at h
      rcases h.2 with rfl
      simp
    · rcases rest with - | ⟨b1, rest⟩
      · simp at h
      · simp only at h
        split_ifs at h
        simp only [Option.some.injEq, Prod.mk.injEq] at h
        rcases h.2 with rfl
        simp
    · rcases rest with - | ⟨b1, rest⟩
      · simp at h
      · rcases rest with - | ⟨b2, rest⟩
        · simp at h
        · simp only at h
          split_ifs at h
          simp only [Option.some.injEq, Prod.mk.injEq] at h
          rcases h.2 with rfl
          simp
    · rcases rest with - | ⟨b1, rest⟩
      · simp at h
      · rcases rest with - | ⟨b2, rest⟩
        · simp at h
        · rcases rest with - | ⟨b3, rest⟩
          · simp at h
          · simp only at h
            split_ifs at h
            simp only [Option.some.injEq, Prod.mk.injEq] at h
            rcases h.2 with rfl
            simp

theorem strSlice_to_length (bs : List Nat) (i : Nat) (hb : isCharBoundaryB bs i = true) :
    strSlice bs i bs.length = Except.ok (bs.drop i) := by
  have hle := isCharBoundaryB_le _ _ hb
  rw [strSlice, if_pos ⟨hle, le_refl _, hb, isCharBoundaryB_length bs⟩]
  congr 1
  apply List.take_of_length_le
  simp

/-! ## Claims -/

/-- **C1** (code bug in `SubstrIterator::next`). The spec says every pull is
total for every buffer/needle/mode, with no underflow and no off-boundary
slicing. The code violates this twice over: on buffer `"a"` with needle `"ab"`
in all mode, `self.l - self.needle_len` underflows (`1 - 2`); on buffer `"é"`
(bytes `[195, 169]`) with needle `"x"`, the scan slices `&s[0..1]` inside the
two-byte character and panics. -/
theorem substr_next_panics :
    (substr_iter [97] [97, 98]).all.next = Except.error RPanic.subUnderflow ∧
    (substr_iter [195, 169] [120]).next = Except.error RPanic.sliceFault := by
  exact ⟨by decide, by decide⟩

/-- **C2** counterexample: buffer `"aab"`, needle `"aa"`, default mode. The
leftmost non-overlapping needle occurrence is at bytes 0..2, so the maximal
non-empty runs of non-delimiter content are exactly `["b"]`; the iterator
instead emits `["ab"]`, a view that overlaps the delimiter occurrence. -/
theorem substr_default_mode_counterexample :
    substrCollect (substr_iter [97, 97, 98] [97, 97]) 5 = Except.ok [[97, 98]] ∧
    (splitSeq [97, 97] [97, 97, 98]).filter (· ≠ []) = [[98]] ∧
    [[97, 98]] ≠ [[98]] := by
  refine ⟨by decide, by decide, by decide⟩

/-- **C3** (code bug in `SubstrIterator::next`): in all mode on buffer `"baab"`
with needle `"aa"`, the iterator emits `["b"]`, while the conventional split —
which `SubstrIterator::all` documents itself as emulating — yields
`["b", "b"]`: the trailing segment after the final match is lost because the
scan resumes one byte (not `needle_len` bytes) after each match and the
end-of-buffer check only recognises a trailing segment at least as long as the
needle. -/
theorem substr_all_mode_counterexample :
    substrCollect ((substr_iter [98, 97, 97, 98] [97, 97]).all) 6 =
      Except.ok [[98]] ∧
    splitSeq [97, 97] [98, 97, 97, 98] = [[98], [98]] := by
  refine ⟨by decide, by decide⟩

/-- **C7** counterexample: buffer `"x ab"`, needle `" "`, default mode. After
two pulls (emitting `"x"` then `"ab"`), the trailing-segment update
`self.start += self.l` leaves the cursor at 6, strictly above the claimed bound
`length + 1 = 5`. -/
theorem substr_cursor_counterexample :
    (substr_iter [120, 32, 97, 98] [32]).next =
      Except.ok (some [120],
        ⟨[120, 32, 97, 98], [32], 4, 1, 2, false⟩) ∧
    SubstrIterator.next ⟨[120, 32, 97, 98], [32], 4, 1, 2, false⟩ =
      Except.ok (some [97, 98],
        ⟨[120, 32, 97, 98], [32], 4, 1, 6, false⟩) ∧
    ¬ (6 : Nat) ≤ 4 + 1 := by
  refine ⟨by decide, by decide, by decide⟩

/-- **C9**: after `reset`, both iterators behave exactly like freshly
constructed ones over the same buffer, needle and predicate, with the
`emit_all` flag preserved: the whole emitted sequence (any number of pulls)
coincides. -/
theorem reset_restores_fresh :
    ∀ (it : SubstrIterator) (ft : FuncIterator) (n : Nat),
      (it.l = it.s.length → it.needle_len = it.needle.length →
        substrCollect it.reset n =
          substrCollect { substr_iter it.s it.needle with emit_all := it.emit_all } n) ∧
      (ft.l = ft.s.length →
        funcCollect ft.reset n = funcCollect (func_iter ft.s ft.f) n) := by
  intro it ft n
  constructor
  · intro h1 h2
    congr 1
    cases it
    simp_all [SubstrIterator.reset, substr_iter]
  · intro h1
    congr 1
    cases ft
    simp_all [FuncIterator.reset, func_iter]

/-- Witness for `reset_restores_fresh` at a concrete advanced all-mode iterator
and a concrete predicate iterator. -/
theorem reset_restores_fresh_witness :
    substrCollect (SubstrIterator.reset ⟨[97, 98], [98], 2, 1, 2, true⟩) 3 =
      substrCollect { substr_iter [97, 98] [98] with emit_all := true } 3 ∧
    funcCollect (FuncIterator.reset ⟨fun _ => false, [97], 1, 1⟩) 3 =
      funcCollect (func_iter [97] (fun _ => false)) 3 := by
  exact ⟨(reset_restores_fresh ⟨[97, 98], [98], 2, 1, 2, true⟩
      ⟨fun _ => false, [97], 1, 1⟩ 3).1 rfl rfl,
    (reset_restores_fresh ⟨[97, 98], [98], 2, 1, 2, true⟩
      ⟨fun _ => false, [97], 1, 1⟩ 3).2 rfl⟩

/-! ## C4: emitted views are boundary-aligned sub-views -/

theorem substrFinish_some_src (s needle : List Nat) (l nl : Nat) (ea : Bool)
    (start : Nat) (hm : Bool) (v : List Nat) (out : Nat)
    (h : substrFinish s needle l nl ea start hm = Except.ok (some v, out)) :
    ∃ a b, strSlice s a b = Except.ok v := by
  unfold substrFinish at h
  split at h
  next h1 =>
    split at h
    next h2 => simp at h
    next h2 =>
      split at h
      next h3 => simp at h
      next h3 =>
        split at h
        next e heq => simp at h
        next suf heq =>
          split at h
          next h4 => simp at h
          next h4 =>
            split at h
            next e heq2 => simp at h
            next v2 heq2 =>
              simp at h
              exact ⟨start, s.length, by rw [heq2, h.1]⟩
  next h1 =>
    split at h
    next e heq => simp at h
    next v2 heq =>
      simp at h
      exact ⟨start, s.length, by rw [heq, h.1]⟩

theorem substrLoop_some_src (s needle : List Nat) (l nl : Nat) (ea : Bool) :
    ∀ (fuel i start : Nat) (hm : Bool) (v : List Nat) (out : Nat),
    substrLoop s needle l nl ea fuel i start hm = Except.ok (some v, out) →
    ∃ a b, strSlice s a b = Except.ok v := by
  intro fuel
  induction fuel with
  | zero =>
    intro i start hm v out h
    exact substrFinish_some_src s needle l nl ea start hm v out h
  | succ fuel ih =>
    intro i start hm v out h
    rw [substrLoop] at h
    split at h
    next h1 =>
      split at h
      next e heq => simp at h
      next seg heq =>
        split at h
        next h2 =>
          split at h
          next hhm => exact ih _ _ _ _ _ h
          next hhm => exact ih _ _ _ _ _ h
        next h2 =>
          split at h
          next h3 => exact ih _ _ _ _ _ h
          next h3 =>
            split at h
            next e heq2 => simp at h
            next v2 heq2 =>
              simp at h
              exact ⟨start, i, by rw [heq2, h.1]⟩
    next h1 => exact substrFinish_some_src s needle l nl ea start hm v out h

theorem substrNext_some_src (it : SubstrIterator) (v : List Nat)
    (it' : SubstrIterator) (h : it.next = Except.ok (some v, it')) :
    v = it.s ∨ ∃ a b, strSlice it.s a b = Except.ok v := by
  unfold SubstrIterator.next at h
  split at h
  next h1 => simp at h
  next h1 =>
    split at h
    next h2 =>
      unfold SubstrIterator.next_char at h
      split at h
      next h5 => simp at h
      next h5 =>
        split at h
        next e heq => simp at h
        next rest heq =>
          split at h
          next heq2 => simp at h
          next dv w heq2 =>
            split at h
            next e heq3 => simp at h
            next v2 heq3 =>
              simp at h
              exact Or.inr ⟨it.start, it.start + w, by rw [heq3, h.1]⟩
    next h2 =>
      split at h
      next h3 =>
        split at h
        next h4 => simp at h
        next h4 =>
          simp at h
          exact Or.inl h.1.symm
      next h3 =>
        split at h
        next e heq => simp at h
        next r st' heq =>
          rcases r with - | v2
          · simp at h
          · simp at h
            rcases h with ⟨rfl, -⟩
            exact Or.inr (substrLoop_some_src _ _ _ _ _ _ _ _ _ _ _ heq)

theorem funcFinish_some_src (s : List Nat) (l start : Nat) (hm : Bool)
    (v : List Nat) (out : Nat)
    (h : funcFinish s l start hm = Except.ok (some v, out)) :
    ∃ a b, strSlice s a b = Except.ok v := by
  unfold funcFinish at h
  split at h
  next h1 =>
    split at h
    next e heq => simp at h
    next v2 heq =>
      simp at h
      exact ⟨start, s.length, by rw [heq, h.1]⟩
  next h1 => simp at h

theorem funcLoop_some_src (f : Char → Bool) (s : List Nat) (l : Nat) :
    ∀ (fuel i start : Nat) (hm : Bool) (v : List Nat) (out : Nat),
    funcLoop f s l fuel i start hm = Except.ok (some v, out) →
    ∃ a b, strSlice s a b = Except.ok v := by
  intro fuel
  induction fuel with
  | zero =>
    intro i start hm v out h
    exact funcFinish_some_src s l start hm v out h
  | succ fuel ih =>
    intro i start hm v out h
    rw [funcLoop] at h
    split at h
    next h1 =>
      split at h
      next e heq => simp at h
      next rest heq =>
        split at h
        next heq2 => simp at h
        next dv w heq2 =>
          split at h
          next h2 =>
            split at h
            next hhm =>
              split at h
              next e heq3 => simp at h
              next seg heq3 =>
                simp at h
                exact ⟨start, i, by rw [heq3, h.1]⟩
            next hhm => exact ih _ _ _ _ _ h
          next h2 =>
            split at h
            next h3 => exact ih _ _ _ _ _ h
            next h3 => exact ih _ _ _ _ _ h
    next h1 => exact funcFinish_some_src s l start hm v out h

theorem funcNext_some_src (it : FuncIterator) (v : List Nat)
    (it' : FuncIterator) (h : it.next = Except.ok (some v, it')) :
    ∃ a b, strSlice it.s a b = Except.ok v := by
  unfold FuncIterator.next at h
  split at h
  next h1 => simp at h
  next h1 =>
    split at h
    next e heq => simp at h
    next r st' heq =>
      rcases r with - | v2
      · simp at h
      · simp at h
        rcases h with ⟨rfl, -⟩
        exact funcLoop_some_src _ _ _ _ _ _ _ _ _ heq

/-- **C4**: on every valid UTF-8 buffer, every view either iterator emits is
the encoding of a contiguous character subrange of the buffer — it starts and
ends on character boundaries and never truncates or spans a partial encoded
character. -/
theorem emitted_views_on_char_boundaries :
    ∀ (cs : List Char),
      (∀ (it : SubstrIterator) (v : List Nat) (it' : SubstrIterator),
        it.s = encodeStr cs → it.next = Except.ok (some v, it') →
        ∃ pre mid suf, cs = pre ++ mid ++ suf ∧ v = encodeStr mid) ∧
      (∀ (it : FuncIterator) (v : List Nat) (it' : FuncIterator),
        it.s = encodeStr cs → it.next = Except.ok (some v, it') →
        ∃ pre mid suf, cs = pre ++ mid ++ suf ∧ v = encodeStr mid) := by
  intro cs
  constructor
  · intro it v it' hs h
    rcases substrNext_some_src it v it' h with hv | ⟨a, b, hsl⟩
    · exact ⟨[], cs, [], by simp, by rw [hv, hs]⟩
    · rw [hs] at hsl
      obtain ⟨A, B, C, hc, hv, -, -⟩ := strSlice_ok_decomp cs a b v hsl
      exact ⟨A, B, C, hc, hv⟩
  · intro it v it' hs h
    obtain ⟨a, b, hsl⟩ := funcNext_some_src it v it' h
    rw [hs] at hsl
    obtain ⟨A, B, C, hc, hv, -, -⟩ := strSlice_ok_decomp cs a b v hsl
    exact ⟨A, B, C, hc, hv⟩

/-- Witness for `emitted_views_on_char_boundaries`: the first view the
space-predicate iterator emits over `"aé b"` (bytes `[97, 195, 169, 32, 98]`)
is `"aé"`, a two-character boundary-aligned subrange. -/
theorem emitted_views_on_char_boundaries_witness :
    ∃ pre mid suf, ['a', 'é', ' ', 'b'] = pre ++ mid ++ suf ∧
      [97, 195, 169] = encodeStr mid :=
  (emitted_views_on_char_boundaries ['a', 'é', ' ', 'b']).2
    (func_iter [97, 195, 169, 32, 98] (fun c => c == ' ')) [97, 195, 169]
    ⟨fun c => c == ' ', [97, 195, 169, 32, 98], 5, 4⟩
    (by rfl) (by rfl)

/-! ## C6: empty needle degenerates to per-character iteration -/

theorem substrNext_empty_needle_step (pre : List Char) (c : Char) (t : List Char)
    (ea : Bool) :
    SubstrIterator.next
      ⟨encodeStr (pre ++ c :: t), [], (encodeStr (pre ++ c :: t)).length, 0,
        (encodeStr pre).length, ea⟩ =
    Except.ok (some (encodeChar c),
      ⟨encodeStr (pre ++ c :: t), [], (encodeStr (pre ++ c :: t)).length, 0,
        (encodeStr (pre ++ [c])).length, ea⟩) := by
  have hwpos : 0 < (encodeChar c).length := encodeChar_length_pos c
  have hlen : (encodeStr (pre ++ c :: t)).length =
      (encodeStr pre).length + (encodeChar c).length + (encodeStr t).length := by
    rw [encodeStr_append, encodeStr_cons]
    simp
    omega
  unfold SubstrIterator.next
  rw [if_neg (by simp only; omega)]
  rw [if_pos rfl]
  unfold SubstrIterator.next_char
  rw [if_neg (by simp only; omega)]
  have hb : isCharBoundaryB (encodeStr (pre ++ c :: t)) (encodeStr pre).length = true :=
    isCharBoundaryB_encodeStr_prefixLen pre (c :: t)
  rw [strSlice_to_length _ _ hb]
  simp only
  have hdrop : (encodeStr (pre ++ c :: t)).drop (encodeStr pre).length =
      encodeChar c ++ encodeStr t := by
    rw [encodeStr_append, List.drop_left, encodeStr_cons]
  rw [hdrop, decodeCharAt_encodeChar]
  simp only
  have hsub : strSlice (encodeStr (pre ++ c :: t)) (encodeStr pre).length
      ((encodeStr pre).length + (encodeChar c).length) = Except.ok (encodeChar c) := by
    have := strSlice_encodeStr_sub pre [c] t
    have h1 : pre ++ [c] ++ t = pre ++ c :: t := by simp
    have h2 : encodeStr [c] = encodeChar c := by
      rw [encodeStr_cons, encodeStr_nil, List.append_nil]
    rwa [h1, h2] at this
  rw [hsub]
  have hst : (encodeStr pre).length + (encodeChar c).length =
      (encodeStr (pre ++ [c])).length := by
    rw [encodeStr_append, List.length_append, encodeStr_cons, encodeStr_nil,
      List.append_nil]
  rw [hst]

theorem substrCollect_empty_needle (pre t : List Char) (ea : Bool) :
    ∀ (fuel : Nat), t.length + 1 ≤ fuel →
    substrCollect
      ⟨encodeStr (pre ++ t), [], (encodeStr (pre ++ t)).length, 0,
        (encodeStr pre).length, ea⟩ fuel =
    Except.ok (t.map encodeChar) := by
  induction t generalizing pre with
  | nil =>
    intro fuel hfuel
    obtain ⟨fuel', rfl⟩ : ∃ k, fuel = k + 1 := ⟨fuel - 1, by omega⟩
    rw [substrCollect]
    have hnext : SubstrIterator.next
        ⟨encodeStr (pre ++ []), [], (encodeStr (pre ++ [])).length, 0,
          (encodeStr pre).length, ea⟩ = Except.ok (none,
        ⟨encodeStr (pre ++ []), [], (encodeStr (pre ++ [])).length, 0,
          (encodeStr pre).length, ea⟩) := by
      unfold SubstrIterator.next
      rw [if_neg (by simp)]
      rw [if_pos rfl]
      unfold SubstrIterator.next_char
      rw [if_pos (by simp)]
    rw [hnext]
    simp
  | cons c t ih =>
    intro fuel hfuel
    obtain ⟨fuel', rfl⟩ : ∃ k, fuel = k + 1 := ⟨fuel - 1, by omega⟩
    rw [substrCollect]
    rw [substrNext_empty_needle_step pre c t ea]
    have hc := ih (pre ++ [c]) fuel' (by simp at hfuel ⊢; omega)
    rw [List.append_assoc] at hc
    simp only [List.singleton_append] at hc
    simp [hc]

/-- **C6**: with a zero-length needle the literal splitter emits exactly one
view per Unicode scalar value of the buffer, in order, each spanning that
character's full encoded width, independently of `emit_all`; in particular the
two-character buffer `"éa"` yields exactly `["é", "a"]`. -/
theorem empty_needle_emits_per_char :
    (∀ (cs : List Char) (ea : Bool),
      substrCollect { substr_iter (encodeStr cs) [] with emit_all := ea }
        (cs.length + 1) = Except.ok (cs.map encodeChar)) ∧
    substrCollect (substr_iter [195, 169, 97] []) 3 =
      Except.ok [[195, 169], [97]] ∧
    substrCollect ((substr_iter [195, 169, 97] []).all) 3 =
      Except.ok [[195, 169], [97]] := by
  refine ⟨?_, by decide, by decide⟩
  intro cs ea
  have := substrCollect_empty_needle [] cs ea (cs.length + 1) (le_refl _)
  simpa [substr_iter, encodeStr_nil] using this

/-! ## C5/C10: simulation of `FuncIterator` on valid UTF-8 buffers -/

/-- Spec-side: one pull of the predicate splitter at character level — skip
separator characters, then return the maximal non-separator run together with
the characters after the separator that terminates it. -/
def charNext (f : Char → Bool) : List Char → Option (List Char × List Char)
  | [] => none
  | c :: t =>
    if f c then charNext f t
    else some (c :: t.takeWhile (fun x => ! f x), (t.dropWhile (fun x => ! f x)).drop 1)

theorem length_encodeStr_append (xs ys : List Char) :
    (encodeStr (xs ++ ys)).length = (encodeStr xs).length + (encodeStr ys).length := by
  rw [encodeStr_append]; simp

theorem length_encodeStr_cons (c : Char) (t : List Char) :
    (encodeStr (c :: t)).length = (encodeChar c).length + (encodeStr t).length := by
  rw [encodeStr_cons]; simp

theorem length_encodeStr_pos (suf : List Char) (h : suf ≠ []) :
    0 < (encodeStr suf).length := by
  cases suf with
  | nil => exact absurd rfl h
  | cons c t =>
    rw [length_encodeStr_cons]
    have := encodeChar_length_pos c
    omega

theorem funcLoop_at_end (f : Char → Bool) (s : List Nat) (l : Nat)
    (fuel i start : Nat) (hm : Bool) (h : l ≤ i) :
    funcLoop f s l fuel i start hm = funcFinish s l start hm := by
  cases fuel with
  | zero => rfl
  | succ fuel => rw [funcLoop, if_neg (by omega)]

theorem strSlice_drop_encodeStr (A suf : List Char) :
    strSlice (encodeStr (A ++ suf)) (encodeStr A).length
      (encodeStr (A ++ suf)).length = Except.ok (encodeStr suf) := by
  rw [strSlice_to_length _ _ (isCharBoundaryB_encodeStr_prefixLen A suf)]
  rw [encodeStr_append, List.drop_left]

theorem funcLoop_token (f : Char → Bool) (cs : List Char) :
    ∀ (suf2 A B : List Char) (fuel : Nat),
    cs = A ++ B ++ suf2 → B ≠ [] → (encodeStr suf2).length ≤ fuel →
    funcLoop f (encodeStr cs) (encodeStr cs).length fuel
        (encodeStr (A ++ B)).length (encodeStr A).length true =
      Except.ok (some (encodeStr (B ++ suf2.takeWhile (fun x => ! f x))),
        (encodeStr cs).length -
          (encodeStr ((suf2.dropWhile (fun x => ! f x)).drop 1)).length) := by
  intro suf2
  induction suf2 with
  | nil =>
    intro A B fuel hcs hB hfuel
    have hABcs : cs = A ++ B := by simpa using hcs
    have hstart_lt : (encodeStr A).length < (encodeStr cs).length := by
      rw [hABcs, length_encodeStr_append]
      have := length_encodeStr_pos B hB
      omega
    have hi : (encodeStr cs).length ≤ (encodeStr (A ++ B)).length := by
      rw [hABcs]
    rw [funcLoop_at_end f _ _ fuel _ _ true hi]
    unfold funcFinish
    rw [if_pos ⟨rfl, hstart_lt⟩]
    have hsl : strSlice (encodeStr cs) (encodeStr A).length
        (encodeStr cs).length = Except.ok (encodeStr B) := by
      rw [hABcs]
      exact strSlice_drop_encodeStr A B
    rw [hsl]
    simp only [List.takeWhile_nil, List.append_nil, List.dropWhile_nil,
      List.drop_nil, encodeStr_nil, List.length_nil, Nat.sub_zero,
      Except.ok.injEq, Prod.mk.injEq, Option.some.injEq]
    exact ⟨trivial, by omega⟩
  | cons c' t' ih =>
    intro A B fuel hcs hB hfuel
    have hw := encodeChar_length_pos c'
    obtain ⟨fuel', rfl⟩ : ∃ k, fuel = k + 1 := by
      refine ⟨fuel - 1, ?_⟩
      rw [length_encodeStr_cons] at hfuel
      omega
    have hlen : (encodeStr cs).length = (encodeStr (A ++ B)).length
        + (encodeChar c').length + (encodeStr t').length := by
      rw [hcs, length_encodeStr_append, length_encodeStr_append,
        length_encodeStr_cons]
      omega
    have hi : (encodeStr (A ++ B)).length < (encodeStr cs).length := by omega
    have hsl : strSlice (encodeStr cs) (encodeStr (A ++ B)).length
        (encodeStr cs).length = Except.ok (encodeChar c' ++ encodeStr t') := by
      have h1 : cs = (A ++ B) ++ (c' :: t') := by simpa using hcs
      rw [h1, strSlice_drop_encodeStr (A ++ B) (c' :: t'), encodeStr_cons]
    rw [funcLoop, if_pos hi, hsl]
    simp only [decodeCharAt_encodeChar, Char.ofNat_toNat]
    cases hfc : f c' with
    | true =>
      simp only [if_pos rfl]
      have hsl2 : strSlice (encodeStr cs) (encodeStr A).length
          (encodeStr (A ++ B)).length = Except.ok (encodeStr B) := by
        have := strSlice_encodeStr_sub A B (c' :: t')
        rw [← hcs] at this
        rwa [length_encodeStr_append]
      rw [hsl2]
      simp [List.takeWhile_cons, List.dropWhile_cons, hfc]
      omega
    | false =>
      rw [if_neg (by simp [hfc])]
      rw [if_neg (by simp)]
      have hrec := ih A (B ++ [c']) fuel'
        (by rw [hcs]; simp)
        (by simp)
        (by rw [length_encodeStr_cons] at hfuel; omega)
      have h1c : (encodeStr [c']).length = (encodeChar c').length := by
        rw [encodeStr_cons, encodeStr_nil, List.append_nil]
      rw [length_encodeStr_append, length_encodeStr_append, h1c,
        ← Nat.add_assoc] at hrec
      rw [length_encodeStr_append]
      rw [hrec]
      simp [List.takeWhile_cons, List.dropWhile_cons, hfc]

theorem funcLoop_skip (f : Char → Bool) (cs : List Char) :
    ∀ (suf A : List Char) (fuel : Nat), cs = A ++ suf →
    (encodeStr suf).length ≤ fuel →
    ((charNext f suf = none →
      ∃ preO sufO, cs = preO ++ sufO ∧
        funcLoop f (encodeStr cs) (encodeStr cs).length fuel
          (encodeStr A).length (encodeStr A).length false =
          Except.ok (none, (encodeStr preO).length)) ∧
     (∀ run rem, charNext f suf = some (run, rem) →
      ∃ A', cs = A' ++ rem ∧
        funcLoop f (encodeStr cs) (encodeStr cs).length fuel
          (encodeStr A).length (encodeStr A).length false =
          Except.ok (some (encodeStr run),
            (encodeStr cs).length - (encodeStr rem).length))) := by
  intro suf
  induction suf with
  | nil =>
    intro A fuel hcs hfuel
    constructor
    · intro hnone
      have hi : (encodeStr cs).length ≤ (encodeStr A).length := by
        rw [hcs]; simp
      refine ⟨A, [], by simpa using hcs, ?_⟩
      rw [funcLoop_at_end f _ _ fuel _ _ false hi]
      unfold funcFinish
      rw [if_neg (by simp)]
    · intro run rem hcn
      exact absurd hcn (by simp [charNext])
  | cons c t ih =>
    intro A fuel hcs hfuel
    have hw := encodeChar_length_pos c
    obtain ⟨fuel', rfl⟩ : ∃ k, fuel = k + 1 := by
      refine ⟨fuel - 1, ?_⟩
      rw [length_encodeStr_cons] at hfuel
      omega
    have hlen : (encodeStr cs).length = (encodeStr A).length
        + (encodeChar c).length + (encodeStr t).length := by
      rw [hcs, length_encodeStr_append, length_encodeStr_cons]
      omega
    have hi : (encodeStr A).length < (encodeStr cs).length := by omega
    have hsl : strSlice (encodeStr cs) (encodeStr A).length
        (encodeStr cs).length = Except.ok (encodeChar c ++ encodeStr t) := by
      rw [hcs, strSlice_drop_encodeStr A (c :: t), encodeStr_cons]
    have harg : (encodeStr (A ++ [c])).length
        = (encodeStr A).length + (encodeChar c).length := by
      rw [length_encodeStr_append, encodeStr_cons, encodeStr_nil, List.append_nil]
    cases hfc : f c with
    | true =>
      have hrest := ih (A ++ [c]) fuel'
        (by rw [hcs]; simp)
        (by rw [length_encodeStr_cons] at hfuel; omega)
      constructor
      · intro hcn
        have hcn' : charNext f t = none := by
          simpa [charNext, hfc] using hcn
        obtain ⟨preO, sufO, hdec, hloop⟩ := hrest.1 hcn'
        refine ⟨preO, sufO, hdec, ?_⟩
        rw [funcLoop, if_pos hi, hsl]
        simp only [decodeCharAt_encodeChar, Char.ofNat_toNat, hfc]
        rw [harg] at hloop
        simpa using hloop
      · intro run rem hcn
        have hcn' : charNext f t = some (run, rem) := by
          simpa [charNext, hfc] using hcn
        obtain ⟨A', hdec, hloop⟩ := hrest.2 run rem hcn'
        refine ⟨A', hdec, ?_⟩
        rw [funcLoop, if_pos hi, hsl]
        simp only [decodeCharAt_encodeChar, Char.ofNat_toNat, hfc]
        rw [harg] at hloop
        simpa using hloop
    | false =>
      constructor
      · intro hcn
        exact absurd hcn (by simp [charNext, hfc])
      · intro run rem hcn
        have hrun : run = c :: t.takeWhile (fun x => ! f x) ∧
            rem = (t.dropWhile (fun x => ! f x)).drop 1 := by
          rw [charNext] at hcn
          rw [if_neg (by simp [hfc])] at hcn
          simp at hcn
          refine ⟨hcn.1.symm, ?_⟩
          rw [List.drop_one]
          exact hcn.2.symm
        obtain ⟨hrun, hrem⟩ := hrun
        have htok := funcLoop_token f cs t A [c] fuel'
          (by rw [hcs]; simp)
          (by simp)
          (by rw [length_encodeStr_cons] at hfuel; omega)
        rw [harg] at htok
        have hA' : ∃ A', cs = A' ++ rem := by
          rcases hdw : t.dropWhile (fun x => ! f x) with - | ⟨sep, t2⟩
          · refine ⟨cs, ?_⟩
            rw [hrem, hdw]
            simp
          · refine ⟨A ++ [c] ++ t.takeWhile (fun x => ! f x) ++ [sep], ?_⟩
            rw [hrem, hdw]
            have ht : t = t.takeWhile (fun x => ! f x) ++ (sep :: t2) := by
              rw [← hdw]
              exact (List.takeWhile_append_dropWhile (fun x => ! f x) t).symm
            rw [hcs]
            nth_rewrite 1 [ht]
            simp
        obtain ⟨A', hdec⟩ := hA'
        refine ⟨A', hdec, ?_⟩
        rw [funcLoop, if_pos hi, hsl]
        simp only [decodeCharAt_encodeChar, Char.ofNat_toNat, hfc]
        rw [hrun, hrem]
        have hout : encodeStr ([c] ++ t.takeWhile (fun x => ! f x))
            = encodeStr (c :: t.takeWhile (fun x => ! f x)) := by simp
        rw [hout] at htok
        simpa using htok

theorem encodeStr_eq_nil (suf : List Char) (h : (encodeStr suf).length = 0) :
    suf = [] := by
  by_contra hc
  have := length_encodeStr_pos suf hc
  omega

theorem funcNext_sim (f : Char → Bool) (cs A suf : List Char) (hcs : cs = A ++ suf) :
    (charNext f suf = none →
      ∃ preO sufO, cs = preO ++ sufO ∧
        FuncIterator.next ⟨f, encodeStr cs, (encodeStr cs).length, (encodeStr A).length⟩ =
          Except.ok (none,
            ⟨f, encodeStr cs, (encodeStr cs).length, (encodeStr preO).length⟩)) ∧
    (∀ run rem, charNext f suf = some (run, rem) →
      ∃ A', cs = A' ++ rem ∧
        FuncIterator.next ⟨f, encodeStr cs, (encodeStr cs).length, (encodeStr A).length⟩ =
          Except.ok (some (encodeStr run),
            ⟨f, encodeStr cs, (encodeStr cs).length,
              (encodeStr cs).length - (encodeStr rem).length⟩)) := by
  have hlen : (encodeStr cs).length
      = (encodeStr A).length + (encodeStr suf).length := by
    rw [hcs, length_encodeStr_append]
  by_cases hse : (encodeStr A).length = (encodeStr cs).length
  · have hsuf : suf = [] := encodeStr_eq_nil suf (by omega)
    subst hsuf
    constructor
    · intro hnone
      refine ⟨A, [], hcs, ?_⟩
      unfold FuncIterator.next
      rw [if_pos hse]
    · intro run rem hcn
      exact absurd hcn (by simp [charNext])
  · have hfuel : (encodeStr suf).length ≤
        (encodeStr cs).length - (encodeStr A).length := by omega
    have hsk := funcLoop_skip f cs suf A
      ((encodeStr cs).length - (encodeStr A).length) hcs hfuel
    constructor
    · intro hnone
      obtain ⟨preO, sufO, h1, h2⟩ := hsk.1 hnone
      refine ⟨preO, sufO, h1, ?_⟩
      unfold FuncIterator.next
      rw [if_neg hse]
      rw [h2]
    · intro run rem hcn
      obtain ⟨A', h1, h2⟩ := hsk.2 run rem hcn
      refine ⟨A', h1, ?_⟩
      unfold FuncIterator.next
      rw [if_neg hse]
      rw [h2]

/-- **C10**: on every valid UTF-8 buffer and for every predicate, a pull on the
predicate iterator from any reachable cursor (a character-boundary prefix
position) never panics: it returns a defined result, and the new cursor is
again a character-boundary prefix position. -/
theorem func_next_total_on_valid :
    ∀ (cs : List Char) (it : FuncIterator),
      it.s = encodeStr cs → it.l = it.s.length →
      (∃ A suf, cs = A ++ suf ∧ it.start = (encodeStr A).length) →
      ∃ r it', it.next = Except.ok (r, it') ∧ it'.s = it.s ∧ it'.l = it.l ∧
        ∃ A' suf', cs = A' ++ suf' ∧ it'.start = (encodeStr A').length := by
  intro cs it hs hl hst
  obtain ⟨A, suf, hcs, hstart⟩ := hst
  obtain ⟨g, s, l, st⟩ := it
  simp only at hs hl hstart
  subst hs
  subst hstart
  rw [hl]
  cases hcn : charNext g suf with
  | none =>
    obtain ⟨preO, sufO, h1, h2⟩ := (funcNext_sim g cs A suf hcs).1 hcn
    exact ⟨none, _, h2, rfl, rfl, preO, sufO, h1, rfl⟩
  | some p =>
    obtain ⟨run, rem⟩ := p
    obtain ⟨A', h1, h2⟩ := (funcNext_sim g cs A suf hcs).2 run rem hcn
    refine ⟨some (encodeStr run), _, h2, rfl, rfl, A', rem, h1, ?_⟩
    simp only
    rw [h1, length_encodeStr_append]
    omega

/-- Witness for `func_next_total_on_valid`: a pull on the word iterator over
the two-character buffer `"é¼"` (both multi-byte) succeeds. -/
theorem func_next_total_on_valid_witness :
    ∃ r it', FuncIterator.next (word_iter (encodeStr ['é', '¼'])) =
        Except.ok (r, it') ∧
      it'.s = (word_iter (encodeStr ['é', '¼'])).s ∧
      it'.l = (word_iter (encodeStr ['é', '¼'])).l ∧
      ∃ A' suf', ['é', '¼'] = A' ++ suf' ∧
        it'.start = (encodeStr A').length :=
  func_next_total_on_valid ['é', '¼'] (word_iter (encodeStr ['é', '¼']))
    rfl rfl ⟨[], ['é', '¼'], rfl, rfl⟩

theorem dropWhile_length_le (p : Char → Bool) :
    ∀ (t : List Char), (t.dropWhile p).length ≤ t.length := by
  intro t
  induction t with
  | nil => simp
  | cons c t ih =>
    rw [List.dropWhile_cons]
    split
    · simp
      omega
    · simp

theorem charNext_rem_length (f : Char → Bool) :
    ∀ (suf run rem : List Char), charNext f suf = some (run, rem) →
    rem.length < suf.length := by
  intro suf
  induction suf with
  | nil => intro run rem h; simp [charNext] at h
  | cons c t ih =>
    intro run rem h
    rw [charNext] at h
    split at h
    · have := ih run rem h
      simp
      omega
    · simp only [Option.some.injEq, Prod.mk.injEq] at h
      have h1 : rem = (t.dropWhile (fun x => ! f x)).tail := by
        rw [← h.2, List.drop_one]
      have h2 := dropWhile_length_le (fun x => ! f x) t
      have h3 : (t.dropWhile (fun x => ! f x)).tail.length
          ≤ (t.dropWhile (fun x => ! f x)).length := by
        rw [List.length_tail]
        omega
      rw [h1]
      simp
      omega

theorem splitP_no_sep (f : Char → Bool) :
    ∀ (t : List Char), t.dropWhile (fun x => ! f x) = [] → splitP f t = [t] := by
  intro t
  induction t with
  | nil => intro h; rfl
  | cons c t ih =>
    intro h
    rw [List.dropWhile_cons] at h
    by_cases hfc : f c = true
    · simp [hfc] at h
    · rw [if_pos (by simp [hfc])] at h
      rw [splitP, if_neg hfc, ih h]

theorem splitP_sep (f : Char → Bool) :
    ∀ (t : List Char) (sep : Char) (t2 : List Char),
    t.dropWhile (fun x => ! f x) = sep :: t2 →
    splitP f t = (t.takeWhile fun x => ! f x) :: splitP f t2 := by
  intro t
  induction t with
  | nil => intro sep t2 h; simp at h
  | cons c t ih =>
    intro sep t2 h
    rw [List.dropWhile_cons] at h
    by_cases hfc : f c = true
    · rw [if_neg (by simp [hfc])] at h
      obtain ⟨rfl, rfl⟩ : c = sep ∧ t = t2 := by
        simpa using h
      rw [splitP, if_pos hfc]
      rw [List.takeWhile_cons, if_neg (by simp [hfc])]
    · rw [if_pos (by simp [hfc])] at h
      rw [splitP, if_neg hfc, ih sep t2 h]
      rw [List.takeWhile_cons, if_pos (by simp [hfc])]

theorem splitP_filter_none (f : Char → Bool) :
    ∀ (suf : List Char), charNext f suf = none →
    (splitP f suf).filter (· ≠ []) = [] := by
  intro suf
  induction suf with
  | nil => intro h; rfl
  | cons c t ih =>
    intro h
    rw [charNext] at h
    split at h
    next hfc =>
      rw [splitP, if_pos hfc, List.filter_cons]
      simp only [ne_eq, not_true_eq_false, decide_False]
      exact ih h
    next hfc => simp at h

theorem splitP_filter_some (f : Char → Bool) :
    ∀ (suf run rem : List Char), charNext f suf = some (run, rem) →
    (splitP f suf).filter (· ≠ []) = run :: (splitP f rem).filter (· ≠ []) := by
  intro suf
  induction suf with
  | nil => intro run rem h; simp [charNext] at h
  | cons c t ih =>
    intro run rem h
    rw [charNext] at h
    split at h
    next hfc =>
      rw [splitP, if_pos hfc, List.filter_cons]
      simp only [ne_eq, not_true_eq_false, decide_False]
      exact ih run rem h
    next hfc =>
      have hfc' : ¬ f c = true := by simpa using hfc
      simp only [Option.some.injEq, Prod.mk.injEq] at h
      obtain ⟨rfl, rfl⟩ := h
      rcases hdw : t.dropWhile (fun x => ! f x) with - | ⟨sep, t2⟩
      · have htw : t.takeWhile (fun x => ! f x) = t := by
          have h2 := List.takeWhile_append_dropWhile (fun x => ! f x) t
          rw [hdw, List.append_nil] at h2
          exact h2
        rw [splitP, if_neg hfc', splitP_no_sep f t hdw]
        simp [htw, splitP]
      · rw [splitP, if_neg hfc', splitP_sep f t sep t2 hdw]
        simp [List.filter_cons]

theorem funcCollect_sim (f : Char → Bool) (cs : List Char) :
    ∀ (fuel : Nat) (suf A : List Char), cs = A ++ suf →
    suf.length + 1 ≤ fuel →
    funcCollect ⟨f, encodeStr cs, (encodeStr cs).length, (encodeStr A).length⟩ fuel =
      Except.ok (((splitP f suf).filter (· ≠ [])).map encodeStr) := by
  intro fuel
  induction fuel with
  | zero => intro suf A hcs hfl; omega
  | succ n ih =>
    intro suf A hcs hfl
    rw [funcCollect]
    cases hcn : charNext f suf with
    | none =>
      obtain ⟨preO, sufO, h1, h2⟩ := (funcNext_sim f cs A suf hcs).1 hcn
      rw [h2]
      rw [splitP_filter_none f suf hcn]
      rfl
    | some p =>
      obtain ⟨run, rem⟩ := p
      obtain ⟨A', h1, h2⟩ := (funcNext_sim f cs A suf hcs).2 run rem hcn
      rw [h2]
      have hstart : (encodeStr cs).length - (encodeStr rem).length
          = (encodeStr A').length := by
        rw [h1, length_encodeStr_append]
        omega
      rw [hstart]
      have hrec := ih rem A' h1
        (by have := charNext_rem_length f suf run rem hcn; omega)
      simp only [hrec]
      rw [splitP_filter_some f suf run rem hcn]
      simp

/-- **C5**: for every valid UTF-8 buffer and every separator predicate, the
predicate splitter emits exactly the maximal non-empty runs of consecutive
non-separator characters, in order (the non-empty segments of the verbatim
predicate split), each as its UTF-8 byte view; and the word facade over
`"1 2 3 a b c"` yields exactly `"1", "2", "3", "a", "b", "c"`. -/
theorem func_iter_emits_maximal_runs :
    (∀ (cs : List Char) (p : Char → Bool),
      funcCollect (func_iter (encodeStr cs) p) (cs.length + 1) =
        Except.ok (((splitP p cs).filter (· ≠ [])).map encodeStr)) ∧
    funcCollect (word_iter [49, 32, 50, 32, 51, 32, 97, 32, 98, 32, 99]) 12 =
      Except.ok [[49], [50], [51], [97], [98], [99]] := by
  constructor
  · intro cs p
    have h := funcCollect_sim p cs (cs.length + 1) cs [] (by simp) (le_refl _)
    have h0 : (encodeStr ([] : List Char)).length = 0 := by
      rw [encodeStr_nil]
      rfl
    rw [h0] at h
    exact h
  · decide

/-! ## C2: default mode with a single-byte needle over a single-byte buffer -/

theorem splitSeqAux_fuel (nd : List Nat) :
    ∀ (n : Nat) (bs : List Nat) (f1 f2 : Nat), bs.length ≤ n →
    bs.length ≤ f1 → bs.length ≤ f2 →
    splitSeqAux nd f1 bs = splitSeqAux nd f2 bs := by
  intro n
  induction n with
  | zero =>
    intro bs f1 f2 hn h1 h2
    have : bs = [] := by
      cases bs with
      | nil => rfl
      | cons b t => simp at hn
    subst this
    cases f1 <;> cases f2 <;> rfl
  | succ n ih =>
    intro bs f1 f2 hn h1 h2
    cases bs with
    | nil => cases f1 <;> cases f2 <;> rfl
    | cons b t =>
      obtain ⟨g1, rfl⟩ : ∃ k, f1 = k + 1 := ⟨f1 - 1, by simp at h1; omega⟩
      obtain ⟨g2, rfl⟩ : ∃ k, f2 = k + 1 := ⟨f2 - 1, by simp at h2; omega⟩
      rw [splitSeqAux, splitSeqAux]
      simp at hn h1 h2
      split
      · have hd : (t.drop (nd.length - 1)).length ≤ t.length := by simp
        rw [ih (t.drop (nd.length - 1)) g1 g2 (by omega) (by omega) (by omega)]
      · rw [ih t g1 g2 (by omega) (by omega) (by omega)]

theorem splitSeq_nil (nd : List Nat) : splitSeq nd [] = [[]] := rfl

theorem splitSeq_cons (d b : Nat) (t : List Nat) :
    splitSeq [d] (b :: t) =
      if b = d then [] :: splitSeq [d] t
      else
        match splitSeq [d] t with
        | [] => [[b]]
        | h :: r => (b :: h) :: r := by
  rw [splitSeq]
  simp only [List.length_cons]
  rw [splitSeqAux]
  by_cases hbd : b = d
  · rw [if_pos (by simp [List.isPrefixOf]; omega)]
    rw [if_pos hbd]
    simp only [List.length_cons, List.length_singleton, Nat.sub_self,
      List.drop_zero]
    rfl
  · rw [if_neg (by simp [List.isPrefixOf]; omega)]
    rw [if_neg hbd]
    rfl

theorem splitSeq_ne_nil (d : Nat) : ∀ (t : List Nat), splitSeq [d] t ≠ [] := by
  intro t
  cases t with
  | nil => simp [splitSeq_nil]
  | cons b t =>
    rw [splitSeq_cons]
    split
    · simp
    · split <;> simp

theorem splitSeq_run (d : Nat) :
    ∀ (run : List Nat), run ≠ [] → (∀ b ∈ run, b ≠ d) →
    splitSeq [d] run = [run] := by
  intro run
  induction run with
  | nil => intro h; exact absurd rfl h
  | cons b t ih =>
    intro hne hfree
    rw [splitSeq_cons, if_neg (hfree b (by simp))]
    cases t with
    | nil => rw [splitSeq_nil]
    | cons b2 t2 =>
      rw [ih (by simp) (fun x hx => hfree x (by simp [hx]))]

theorem splitSeq_run_sep (d : Nat) :
    ∀ (run rest : List Nat), (∀ b ∈ run, b ≠ d) →
    splitSeq [d] (run ++ d :: rest) = run :: splitSeq [d] rest := by
  intro run
  induction run with
  | nil =>
    intro rest hfree
    rw [List.nil_append, splitSeq_cons, if_pos rfl]
  | cons b t ih =>
    intro rest hfree
    rw [List.cons_append, splitSeq_cons, if_neg (hfree b (by simp))]
    rw [ih rest (fun x hx => hfree x (by simp [hx]))]

theorem splitSeq_filter_all_sep (d : Nat) :
    ∀ (rest : List Nat), (∀ b ∈ rest, b = d) →
    (splitSeq [d] rest).filter (· ≠ []) = [] := by
  intro rest
  induction rest with
  | nil => intro h; rfl
  | cons b t ih =>
    intro hall
    rw [splitSeq_cons, if_pos (hall b (by simp))]
    rw [List.filter_cons]
    simp only [ne_eq, not_true_eq_false, decide_False]
    exact ih (fun x hx => hall x (by simp [hx]))

theorem splitSeq_filter_skip (d : Nat) :
    ∀ (ds rest : List Nat), (∀ b ∈ ds, b = d) →
    (splitSeq [d] (ds ++ rest)).filter (· ≠ []) =
      (splitSeq [d] rest).filter (· ≠ []) := by
  intro ds
  induction ds with
  | nil => intro rest h; rw [List.nil_append]
  | cons b t ih =>
    intro rest hall
    rw [List.cons_append, splitSeq_cons, if_pos (hall b (by simp))]
    rw [List.filter_cons]
    simp only [ne_eq, not_true_eq_false, decide_False]
    exact ih rest (fun x hx => hall x (by simp [hx]))

theorem ascii_boundary (bs : List Nat) (hA : ∀ b ∈ bs, b < 128) (i : Nat)
    (h : i ≤ bs.length) : isCharBoundaryB bs i = true := by
  rcases Nat.lt_or_ge i bs.length with hlt | hge
  · have hb : bs[i]? = some bs[i] := List.getElem?_eq_getElem hlt
    have := hA bs[i] (List.getElem_mem hlt)
    simp [isCharBoundaryB, hb]
    omega
  · have : i = bs.length := by omega
    subst this
    exact isCharBoundaryB_length bs

theorem strSlice_ascii (bs : List Nat) (hA : ∀ b ∈ bs, b < 128) (i j : Nat)
    (hij : i ≤ j) (hj : j ≤ bs.length) :
    strSlice bs i j = Except.ok ((bs.drop i).take (j - i)) := by
  rw [strSlice, if_pos ⟨hij, hj, ascii_boundary bs hA i (by omega),
    ascii_boundary bs hA j hj⟩]

theorem strSlice_ascii_one (bs : List Nat) (hA : ∀ b ∈ bs, b < 128)
    (i : Nat) (b : Nat) (rest : List Nat) (hdrop : bs.drop i = b :: rest) :
    strSlice bs i (i + 1) = Except.ok [b] := by
  have hlt : i < bs.length := by
    by_contra hc
    rw [List.drop_eq_nil_of_le (by omega)] at hdrop
    simp at hdrop
  rw [strSlice_ascii bs hA i (i + 1) (by omega) (by omega)]
  rw [hdrop]
  simp

theorem substrLoop_at_end (s needle : List Nat) (l nl : Nat) (ea : Bool)
    (fuel i start : Nat) (hm : Bool) (h : ¬ (i < l ∧ i + nl ≤ l)) :
    substrLoop s needle l nl ea fuel i start hm =
      substrFinish s needle l nl ea start hm := by
  cases fuel with
  | zero => rfl
  | succ fuel => rw [substrLoop, if_neg h]

theorem drop_succ_of_drop_cons (bs : List Nat) (i b : Nat) (rest : List Nat)
    (h : bs.drop i = b :: rest) : bs.drop (i + 1) = rest := by
  have h2 := List.drop_drop 1 i bs
  rw [h] at h2
  simp at h2
  exact h2.symm

theorem substrLoop_all_sep (bs : List Nat) (hA : ∀ b ∈ bs, b < 128) (d : Nat) :
    ∀ (rest : List Nat) (fuel i start : Nat),
    bs.drop i = rest → i + rest.length = bs.length → rest.length ≤ fuel →
    (∀ b ∈ rest, b = d) →
    ∃ out, substrLoop bs [d] bs.length 1 false fuel i start false =
      Except.ok (none, out) := by
  intro rest
  induction rest with
  | nil =>
    intro fuel i start hdrop hlen hfuel hall
    refine ⟨start, ?_⟩
    rw [substrLoop_at_end bs [d] bs.length 1 false fuel i start false
      (by simp at hlen; omega)]
    rfl
  | cons b rest ih =>
    intro fuel i start hdrop hlen hfuel hall
    obtain ⟨fuel', rfl⟩ : ∃ k, fuel = k + 1 := ⟨fuel - 1, by simp at hfuel; omega⟩
    have hlt : i < bs.length := by simp at hlen; omega
    rw [substrLoop, if_pos ⟨hlt, by simp at hlen; omega⟩]
    rw [strSlice_ascii_one bs hA i b rest hdrop]
    have hbd : b = d := hall b (by simp)
    rw [hbd]
    simp only [reduceCtorEq]
    simp
    have hdrop' : bs.drop (i + 1) = rest := drop_succ_of_drop_cons bs i b rest hdrop
    have hlen' : i + (rest.length + 1) = bs.length := by simpa using hlen
    have hfuel' : rest.length + 1 ≤ fuel' + 1 := by simpa using hfuel
    exact ih fuel' (i + 1) i hdrop' (by omega) (by omega)
      (fun x hx => hall x (by simp [hx]))

theorem substrLoop_token_end (bs : List Nat) (hA : ∀ b ∈ bs, b < 128) (d : Nat) :
    ∀ (rest2 : List Nat) (fuel i tokStart : Nat),
    bs.drop i = rest2 → i + rest2.length = bs.length → rest2.length ≤ fuel →
    tokStart ≤ i → (∀ b ∈ rest2, b ≠ d) →
    substrLoop bs [d] bs.length 1 false fuel i tokStart true =
      Except.ok (some (bs.drop tokStart), tokStart + bs.length) := by
  intro rest2
  induction rest2 with
  | nil =>
    intro fuel i tokStart hdrop hlen hfuel htok hfree
    rw [substrLoop_at_end bs [d] bs.length 1 false fuel i tokStart true
      (by simp at hlen; omega)]
    unfold substrFinish
    rw [if_neg (by simp)]
    rw [strSlice_ascii bs hA tokStart bs.length (by simp at hlen; omega) (le_refl _)]
    simp
  | cons b rest2 ih =>
    intro fuel i tokStart hdrop hlen hfuel htok hfree
    obtain ⟨fuel', rfl⟩ : ∃ k, fuel = k + 1 := ⟨fuel - 1, by simp at hfuel; omega⟩
    have hlt : i < bs.length := by simp at hlen; omega
    rw [substrLoop, if_pos ⟨hlt, by simp at hlen; omega⟩]
    rw [strSlice_ascii_one bs hA i b rest2 hdrop]
    have hbd : ¬ b = d := hfree b (by simp)
    simp only [Ne, hbd, not_false_iff, List.cons.injEq, and_true, if_true]
    have hdrop' : bs.drop (i + 1) = rest2 := drop_succ_of_drop_cons bs i b rest2 hdrop
    have hlen' : i + (rest2.length + 1) = bs.length := by simpa using hlen
    have hfuel' : rest2.length + 1 ≤ fuel' + 1 := by simpa using hfuel
    exact ih fuel' (i + 1) tokStart hdrop' (by omega) (by omega) (by omega)
      (fun x hx => hfree x (by simp [hx]))

theorem substrLoop_token_sep (bs : List Nat) (hA : ∀ b ∈ bs, b < 128) (d : Nat) :
    ∀ (w rest3 : List Nat) (fuel i tokStart : Nat),
    bs.drop i = w ++ d :: rest3 → i + w.length + 1 + rest3.length = bs.length →
    w.length + 1 + rest3.length ≤ fuel → tokStart ≤ i → (∀ b ∈ w, b ≠ d) →
    substrLoop bs [d] bs.length 1 false fuel i tokStart true =
      Except.ok (some ((bs.drop tokStart).take (i + w.length - tokStart)),
        i + w.length + 1) := by
  intro w
  induction w with
  | nil =>
    intro rest3 fuel i tokStart hdrop hlen hfuel htok hfree
    obtain ⟨fuel', rfl⟩ : ∃ k, fuel = k + 1 := ⟨fuel - 1, by omega⟩
    rw [List.nil_append] at hdrop
    have hlt : i < bs.length := by omega
    rw [substrLoop, if_pos ⟨hlt, by omega⟩]
    rw [strSlice_ascii_one bs hA i d rest3 hdrop]
    simp only [ne_eq, not_true_eq_false, if_neg (by simp : ¬ ¬ ([d] : List Nat) = [d])]
    rw [if_neg (by simp)]
    rw [strSlice_ascii bs hA tokStart i htok (by omega)]
    simp
  | cons b w ih =>
    intro rest3 fuel i tokStart hdrop hlen hfuel htok hfree
    obtain ⟨fuel', rfl⟩ : ∃ k, fuel = k + 1 := ⟨fuel - 1, by simp at hfuel; omega⟩
    have hlt : i < bs.length := by simp at hlen; omega
    rw [substrLoop, if_pos ⟨hlt, by simp at hlen; omega⟩]
    rw [List.cons_append] at hdrop
    rw [strSlice_ascii_one bs hA i b (w ++ d :: rest3) hdrop]
    have hbd : ¬ b = d := hfree b (by simp)
    simp only [Ne, hbd, not_false_iff, List.cons.injEq, and_true, if_true]
    have hdrop' : bs.drop (i + 1) = w ++ d :: rest3 :=
      drop_succ_of_drop_cons bs i b _ hdrop
    have hlen' : i + 1 + w.length + 1 + rest3.length = bs.length := by
      simp at hlen
      omega
    have hres := ih rest3 fuel' (i + 1) tokStart hdrop' hlen'
      (by simp at hfuel; omega) (by omega) (fun x hx => hfree x (by simp [hx]))
    rw [hres]
    have harith : i + 1 + w.length = i + (b :: w).length := by simp; omega
    rw [harith]

theorem substrLoopD_main (bs : List Nat) (hA : ∀ b ∈ bs, b < 128) (d : Nat) :
    ∀ (ds run restR : List Nat) (fuel p start : Nat),
    bs.drop p = ds ++ run ++ restR →
    p + ds.length + run.length + restR.length = bs.length →
    ds.length + run.length + restR.length ≤ fuel →
    (∀ b ∈ ds, b = d) → run ≠ [] → (∀ b ∈ run, b ≠ d) →
    (restR = [] →
      substrLoop bs [d] bs.length 1 false fuel p start false =
        Except.ok (some run, p + ds.length + bs.length)) ∧
    (∀ rest4, restR = d :: rest4 →
      substrLoop bs [d] bs.length 1 false fuel p start false =
        Except.ok (some run, p + ds.length + run.length + 1)) := by
  intro ds
  induction ds with
  | nil =>
    intro run restR fuel p start hdrop hlen hfuel hds hrunne hrunfree
    rw [List.nil_append] at hdrop
    obtain ⟨b, run', rfl⟩ : ∃ b run', run = b :: run' := by
      cases run with
      | nil => exact absurd rfl hrunne
      | cons b r => exact ⟨b, r, rfl⟩
    obtain ⟨fuel', rfl⟩ : ∃ k, fuel = k + 1 := ⟨fuel - 1, by simp at hfuel; omega⟩
    have hlt : p < bs.length := by simp at hlen; omega
    have hdropb : bs.drop p = b :: (run' ++ restR) := by simpa using hdrop
    have hstep : substrLoop bs [d] bs.length 1 false (fuel' + 1) p start false =
        substrLoop bs [d] bs.length 1 false fuel' (p + 1) p true := by
      rw [substrLoop, if_pos ⟨hlt, by omega⟩]
      rw [strSlice_ascii_one bs hA p b _ hdropb]
      have hbd : ¬ b = d := hrunfree b (by simp)
      simp only [Ne, hbd, not_false_iff, List.cons.injEq, and_true, if_true]
      simp
    have hdrop' : bs.drop (p + 1) = run' ++ restR :=
      drop_succ_of_drop_cons bs p b _ hdropb
    constructor
    · intro hR
      subst hR
      rw [List.append_nil] at hdrop'
      rw [hstep]
      have := substrLoop_token_end bs hA d run' fuel' (p + 1) p hdrop'
        (by simp at hlen; omega) (by simp at hfuel; omega) (by omega)
        (fun x hx => hrunfree x (by simp [hx]))
      rw [this, hdropb]
      simp
      try omega
    · intro rest4 hR
      subst hR
      rw [hstep]
      have := substrLoop_token_sep bs hA d run' rest4 fuel' (p + 1) p hdrop'
        (by simp at hlen; omega) (by simp at hfuel; omega) (by omega)
        (fun x hx => hrunfree x (by simp [hx]))
      rw [this, hdropb]
      have htake : ((b :: (run' ++ d :: rest4)).take (p + 1 + run'.length - p))
          = b :: run' := by
        have : p + 1 + run'.length - p = run'.length + 1 := by omega
        rw [this]
        simp [List.take_append_of_le_length]
      rw [htake]
      simp
      try omega
  | cons b0 ds' ih =>
    intro run restR fuel p start hdrop hlen hfuel hds hrunne hrunfree
    have hb0 : b0 = d := hds b0 (by simp)
    subst hb0
    obtain ⟨fuel', rfl⟩ : ∃ k, fuel = k + 1 := ⟨fuel - 1, by simp at hfuel; omega⟩
    have hlt : p < bs.length := by simp at hlen; omega
    have hdropb : bs.drop p = b0 :: (ds' ++ run ++ restR) := by simpa using hdrop
    have hstep : substrLoop bs [b0] bs.length 1 false (fuel' + 1) p start false =
        substrLoop bs [b0] bs.length 1 false fuel' (p + 1) p false := by
      rw [substrLoop, if_pos ⟨hlt, by omega⟩]
      rw [strSlice_ascii_one bs hA p b0 _ hdropb]
      simp
    have hdrop' : bs.drop (p + 1) = ds' ++ run ++ restR :=
      drop_succ_of_drop_cons bs p b0 _ hdropb
    have hrec := ih run restR fuel' (p + 1) p hdrop'
      (by simp at hlen; omega) (by simp at hfuel; omega)
      (fun x hx => hds x (by simp [hx])) hrunne hrunfree
    constructor
    · intro hR
      rw [hstep, hrec.1 hR]
      simp only [Except.ok.injEq, Prod.mk.injEq, List.length_cons]
      exact ⟨trivial, by omega⟩
    · intro rest4 hR
      rw [hstep, hrec.2 rest4 hR]
      simp only [Except.ok.injEq, Prod.mk.injEq, List.length_cons]
      exact ⟨trivial, by omega⟩

theorem dropWhile_head_eq (p : Nat → Bool) :
    ∀ (l : List Nat) (x : Nat) (xs : List Nat),
    l.dropWhile p = x :: xs → p x = false := by
  intro l
  induction l with
  | nil => intro x xs h; simp at h
  | cons b t ih =>
    intro x xs h
    rw [List.dropWhile_cons] at h
    split at h
    · exact ih x xs h
    · next hb =>
      obtain ⟨rfl, -⟩ : b = x ∧ t = xs := by simpa using h
      simpa using hb

theorem takeWhile_mem (p : Nat → Bool) :
    ∀ (l : List Nat) (x : Nat), x ∈ l.takeWhile p → p x = true := by
  intro l
  induction l with
  | nil => intro x h; simp at h
  | cons b t ih =>
    intro x h
    rw [List.takeWhile_cons] at h
    split at h
    · next hb =>
      rcases List.mem_cons.mp h with rfl | h2
      · exact hb
      · exact ih x h2
    · simp at h

theorem substrNextD_none (bs : List Nat) (hA : ∀ b ∈ bs, b < 128) (d p : Nat)
    (rest : List Nat) (hdrop : bs.drop p = rest)
    (hlen : p + rest.length = bs.length) (hall : ∀ b ∈ rest, b = d) :
    ∃ st', SubstrIterator.next ⟨bs, [d], bs.length, 1, p, false⟩ =
      Except.ok (none, st') := by
  unfold SubstrIterator.next
  rw [if_neg (by simp; omega)]
  rw [if_neg (by simp)]
  by_cases hl0 : bs.length = 0
  · rw [if_pos hl0]
    rw [if_pos (by simp)]
    exact ⟨_, rfl⟩
  · rw [if_neg hl0]
    obtain ⟨out, hout⟩ := substrLoop_all_sep bs hA d rest (bs.length - p) p p
      hdrop hlen (by omega) hall
    rw [hout]
    exact ⟨_, rfl⟩

theorem substrNextD_run (bs : List Nat) (hA : ∀ b ∈ bs, b < 128) (d p : Nat)
    (ds run restR : List Nat) (hdrop : bs.drop p = ds ++ run ++ restR)
    (hlen : p + ds.length + run.length + restR.length = bs.length)
    (hds : ∀ b ∈ ds, b = d) (hrunne : run ≠ []) (hrunfree : ∀ b ∈ run, b ≠ d) :
    (restR = [] →
      SubstrIterator.next ⟨bs, [d], bs.length, 1, p, false⟩ =
        Except.ok (some run, ⟨bs, [d], bs.length, 1, p + ds.length + bs.length, false⟩)) ∧
    (∀ rest4, restR = d :: rest4 →
      SubstrIterator.next ⟨bs, [d], bs.length, 1, p, false⟩ =
        Except.ok (some run,
          ⟨bs, [d], bs.length, 1, p + ds.length + run.length + 1, false⟩)) := by
  have hl0 : bs.length ≠ 0 := by
    have : 0 < run.length := List.length_pos.mpr hrunne
    omega
  have hmain := substrLoopD_main bs hA d ds run restR (bs.length - p) p p hdrop
    hlen (by omega) hds hrunne hrunfree
  constructor
  · intro hR
    unfold SubstrIterator.next
    rw [if_neg (by simp; omega)]
    rw [if_neg (by simp)]
    rw [if_neg hl0]
    rw [hmain.1 hR]
  · intro rest4 hR
    unfold SubstrIterator.next
    rw [if_neg (by simp; omega)]
    rw [if_neg (by simp)]
    rw [if_neg hl0]
    rw [hmain.2 rest4 hR]

theorem substrNextD_exhaust (bs : List Nat) (d q : Nat) (hq : bs.length ≤ q) :
    ∃ st', SubstrIterator.next ⟨bs, [d], bs.length, 1, q, false⟩ =
      Except.ok (none, st') := by
  unfold SubstrIterator.next
  by_cases hgt : q > bs.length
  · rw [if_pos hgt]
    exact ⟨_, rfl⟩
  · have hql : q = bs.length := by omega
    rw [if_neg hgt]
    rw [if_neg (by simp)]
    by_cases hl0 : bs.length = 0
    · rw [if_pos hl0]
      rw [if_pos (by simp)]
      exact ⟨_, rfl⟩
    · rw [if_neg hl0]
      have hfz : bs.length - q = 0 := by omega
      rw [hfz]
      have : substrLoop bs [d] bs.length 1 false 0 q q false =
          substrFinish bs [d] bs.length 1 false q false := rfl
      rw [this]
      unfold substrFinish
      rw [if_pos (by simp)]
      rw [if_pos (by simp)]
      exact ⟨_, rfl⟩

theorem drop_add_of_drop (bs rest : List Nat) (p k : Nat) (h : bs.drop p = rest) :
    bs.drop (p + k) = rest.drop k := by
  have e1 := List.drop_drop k p bs
  rw [h] at e1
  exact e1.symm

theorem substrCollectD (bs : List Nat) (hA : ∀ b ∈ bs, b < 128) (d : Nat) :
    ∀ (fuel : Nat) (rest : List Nat) (p : Nat),
    bs.drop p = rest → p + rest.length = bs.length → rest.length + 2 ≤ fuel →
    substrCollect ⟨bs, [d], bs.length, 1, p, false⟩ fuel =
      Except.ok ((splitSeq [d] rest).filter (· ≠ [])) := by
  intro fuel
  induction fuel with
  | zero => intro rest p h1 h2 h3; omega
  | succ n ih =>
    intro rest p hdrop hlen hfuel
    have hsplit : rest = rest.takeWhile (fun b => b == d)
        ++ rest.dropWhile (fun b => b == d) :=
      (List.takeWhile_append_dropWhile (fun b => b == d) rest).symm
    have hds : ∀ b ∈ rest.takeWhile (fun b => b == d), b = d := by
      intro x hx
      have := takeWhile_mem (fun b => b == d) rest x hx
      simpa using this
    rcases hdw : rest.dropWhile (fun b => b == d) with - | ⟨r, rest2⟩
    · have hall : ∀ b ∈ rest, b = d := by
        intro x hx
        apply hds
        rw [hsplit, hdw, List.append_nil] at hx
        exact hx
      obtain ⟨st', hnone⟩ := substrNextD_none bs hA d p rest hdrop hlen hall
      rw [substrCollect, hnone]
      rw [splitSeq_filter_all_sep d rest hall]
    · have hrd : ¬ r = d := by
        have := dropWhile_head_eq (fun b => b == d) rest r rest2 hdw
        simpa using this
      have hrest2 : rest = rest.takeWhile (fun b => b == d) ++ r :: rest2 := by
        rw [← hdw]
        exact hsplit
      have hsplit2 : (r :: rest2 : List Nat) = (r :: rest2).takeWhile (fun b => b != d)
          ++ (r :: rest2).dropWhile (fun b => b != d) :=
        (List.takeWhile_append_dropWhile (fun b => b != d) (r :: rest2)).symm
      have hrunfree : ∀ b ∈ (r :: rest2).takeWhile (fun b => b != d), b ≠ d := by
        intro x hx
        have := takeWhile_mem (fun b => b != d) (r :: rest2) x hx
        simpa using this
      have hrunne : (r :: rest2).takeWhile (fun b => b != d) ≠ [] := by
        rw [List.takeWhile_cons, if_pos (by simpa using hrd)]
        simp
      have hdecomp : rest = rest.takeWhile (fun b => b == d)
          ++ (r :: rest2).takeWhile (fun b => b != d)
          ++ (r :: rest2).dropWhile (fun b => b != d) := by
        conv_lhs => rw [hrest2, hsplit2]
        exact (List.append_assoc _ _ _).symm
      have hlen_td : ((r :: rest2).takeWhile (fun b => b != d)).length
          + ((r :: rest2).dropWhile (fun b => b != d)).length = rest2.length + 1 := by
        have h2 := congrArg List.length
          (List.takeWhile_append_dropWhile (fun b => b != d) (r :: rest2))
        rw [List.length_append, List.length_cons] at h2
        exact h2
      have hlenparts : rest.length = (rest.takeWhile (fun b => b == d)).length
          + ((r :: rest2).takeWhile (fun b => b != d)).length
          + ((r :: rest2).dropWhile (fun b => b != d)).length := by
        conv_lhs => rw [hdecomp]
        simp
        omega
      have hdrop2 : bs.drop p = rest.takeWhile (fun b => b == d)
          ++ (r :: rest2).takeWhile (fun b => b != d)
          ++ (r :: rest2).dropWhile (fun b => b != d) := by
        rw [hdrop]
        exact hdecomp
      have hlen2 : p + (rest.takeWhile (fun b => b == d)).length
          + ((r :: rest2).takeWhile (fun b => b != d)).length
          + ((r :: rest2).dropWhile (fun b => b != d)).length = bs.length := by
        omega
      have hpc := substrNextD_run bs hA d p _ _ _ hdrop2 hlen2 hds hrunne hrunfree
      have hlru : 0 < ((r :: rest2).takeWhile (fun b => b != d)).length :=
        List.length_pos.mpr hrunne
      rcases hdw2 : (r :: rest2).dropWhile (fun b => b != d) with - | ⟨s, rest4⟩
      · -- the final run reaches the end of the buffer
        rw [substrCollect, hpc.1 hdw2]
        obtain ⟨n', rfl⟩ : ∃ k, n = k + 1 := ⟨n - 1, by omega⟩
        obtain ⟨st', hnone⟩ := substrNextD_exhaust bs d
          (p + (rest.takeWhile (fun b => b == d)).length + bs.length) (by omega)
        have hcoll2 : substrCollect ⟨bs, [d], bs.length, 1,
            p + (rest.takeWhile (fun b => b == d)).length + bs.length, false⟩
            (n' + 1) = Except.ok [] := by
          rw [substrCollect, hnone]
        conv_rhs => rw [hdecomp, hdw2, List.append_nil]
        rw [splitSeq_filter_skip d _ _ hds]
        rw [splitSeq_run d _ hrunne hrunfree]
        simp [hcoll2, hrunne]
      · -- the final run is terminated by a separator byte
        have hsd : s = d := by
          have := dropWhile_head_eq (fun b => b != d) (r :: rest2) s rest4 hdw2
          simpa using this
        rw [hsd] at hdw2
        rw [substrCollect, hpc.2 rest4 hdw2]
        have hdwlen : ((r :: rest2).dropWhile (fun b => b != d)).length
            = rest4.length + 1 := by
          rw [hdw2]
          rfl
        have hassoc : p + (rest.takeWhile (fun b => b == d)).length
            + ((r :: rest2).takeWhile (fun b => b != d)).length + 1
            = p + ((rest.takeWhile (fun b => b == d)).length
              + ((r :: rest2).takeWhile (fun b => b != d)).length + 1) := by
          omega
        rw [hassoc]
        have hdrop4 : bs.drop (p + ((rest.takeWhile (fun b => b == d)).length
            + ((r :: rest2).takeWhile (fun b => b != d)).length + 1)) = rest4 := by
          rw [drop_add_of_drop bs rest p _ hdrop]
          have e0 : rest = (rest.takeWhile (fun b => b == d)
              ++ (r :: rest2).takeWhile (fun b => b != d) ++ [d]) ++ rest4 := by
            conv_lhs => rw [hdecomp, hdw2]
            simp
          have e1 : (rest.takeWhile (fun b => b == d)).length
              + ((r :: rest2).takeWhile (fun b => b != d)).length + 1
              = (rest.takeWhile (fun b => b == d)
                ++ (r :: rest2).takeWhile (fun b => b != d) ++ [d]).length := by
            simp
            omega
          rw [e1]
          conv_lhs =>
            arg 2
            rw [e0]
          exact List.drop_left _ _
        have hrec := ih rest4 (p + ((rest.takeWhile (fun b => b == d)).length
            + ((r :: rest2).takeWhile (fun b => b != d)).length + 1))
          hdrop4 (by omega) (by omega)
        conv_rhs => rw [hdecomp, hdw2, List.append_assoc]
        rw [splitSeq_filter_skip d _ _ hds]
        rw [splitSeq_run_sep d _ rest4 hrunfree]
        rw [List.filter_cons]
        simp [hrec, hrunne]

/-- **C2** (amended): for every buffer of single-byte characters and every
single-byte needle, default mode emits exactly the maximal non-empty runs of
non-delimiter content — the non-empty segments of the standard split — in
left-to-right order; delimiters at the start, end, or adjacent to each other
never produce empty views, the `"hello  world"` scenario yields `"hello"` then
`"world"`, and an empty buffer yields zero items. -/
theorem substr_default_single_byte_runs (bs : List Nat) (d : Nat)
    (hA : ∀ b ∈ bs, b < 128) :
    substrCollect (substr_iter bs [d]) (bs.length + 2) =
      Except.ok ((splitSeq [d] bs).filter (· ≠ [])) := by
  have h := substrCollectD bs hA d (bs.length + 2) bs 0 (by simp) (by simp)
    (le_refl _)
  exact h

/-- Witness for `substr_default_single_byte_runs`: the `"hello  world"` / `" "`
scenario produces exactly `"hello"` then `"world"`, and the empty buffer
produces zero items. -/
theorem substr_default_single_byte_runs_witness :
    substrCollect (substr_iter [104, 101, 108, 108, 111, 32, 32, 119, 111, 114,
      108, 100] [32]) 14 =
      Except.ok [[104, 101, 108, 108, 111], [119, 111, 114, 108, 100]] ∧
    substrCollect (substr_iter [] [32]) 2 = Except.ok [] :=
  ⟨(substr_default_single_byte_runs [104, 101, 108, 108, 111, 32, 32, 119, 111,
      114, 108, 100] 32 (by decide)).trans (by decide),
    (substr_default_single_byte_runs [] 32 (by decide)).trans (by decide)⟩

/-! ## C7: cursor bounds -/

theorem strSlice_ok_facts (bs : List Nat) (i j : Nat) (v : List Nat)
    (h : strSlice bs i j = Except.ok v) :
    i ≤ j ∧ j ≤ bs.length ∧ v = (bs.drop i).take (j - i) := by
  rw [strSlice] at h
  split at h
  next hc =>
    simp at h
    exact ⟨hc.1, hc.2.1, h.symm⟩
  next hc => simp at h

theorem substrFinish_out_le (s needle : List Nat) (l nl : Nat) (ea : Bool)
    (start : Nat) (hm : Bool) (v : Option (List Nat)) (out : Nat)
    (hstart : start ≤ l) (hhm : hm = true → start < l)
    (h : substrFinish s needle l nl ea start hm = Except.ok (v, out)) :
    out ≤ 2 * l + 1 := by
  unfold substrFinish at h
  split at h
  next h1 =>
    split at h
    next h2 =>
      simp at h
      omega
    next h2 =>
      split at h
      next h3 => simp at h
      next h3 =>
        split at h
        next e heq => simp at h
        next suf heq =>
          split at h
          next h4 =>
            simp at h
            omega
          next h4 =>
            split at h
            next e heq2 => simp at h
            next v2 heq2 =>
              simp at h
              omega
  next h1 =>
    split at h
    next e heq => simp at h
    next v2 heq =>
      simp at h
      have := hhm (by simpa using h1)
      omega

theorem substrLoop_out_le (s needle : List Nat) (l nl : Nat) (ea : Bool) :
    ∀ (fuel i start : Nat) (hm : Bool) (v : Option (List Nat)) (out : Nat),
    start ≤ l → (hm = true → start < l) →
    substrLoop s needle l nl ea fuel i start hm = Except.ok (v, out) →
    out ≤ 2 * l + 1 := by
  intro fuel
  induction fuel with
  | zero =>
    intro i start hm v out hs hhm h
    exact substrFinish_out_le s needle l nl ea start hm v out hs hhm h
  | succ fuel ih =>
    intro i start hm v out hs hhm h
    rw [substrLoop] at h
    split at h
    next h1 =>
      split at h
      next e heq => simp at h
      next seg heq =>
        split at h
        next h2 =>
          split at h
          next hhm2 => exact ih _ _ _ _ _ hs (fun _ => hhm hhm2) h
          next hhm2 => exact ih _ _ _ _ _ (by omega) (fun _ => h1.1) h
        next h2 =>
          split at h
          next h3 => exact ih _ _ _ _ _ (by omega) (by simp) h
          next h3 =>
            split at h
            next e heq2 => simp at h
            next v2 heq2 =>
              simp at h
              omega
    next h1 => exact substrFinish_out_le s needle l nl ea start hm v out hs hhm h

theorem funcFinish_out_le (s : List Nat) (l start : Nat) (hm : Bool)
    (v : Option (List Nat)) (out : Nat) (hstart : start ≤ l)
    (h : funcFinish s l start hm = Except.ok (v, out)) : out ≤ l := by
  unfold funcFinish at h
  split at h
  next h1 =>
    split at h
    next e heq => simp at h
    next v2 heq =>
      simp at h
      omega
  next h1 =>
    simp at h
    omega

theorem funcLoop_out_le (f : Char → Bool) (s : List Nat) (l : Nat)
    (hl : l = s.length) :
    ∀ (fuel i start : Nat) (hm : Bool) (v : Option (List Nat)) (out : Nat),
    i ≤ l → start ≤ l →
    funcLoop f s l fuel i start hm = Except.ok (v, out) →
    out ≤ l := by
  intro fuel
  induction fuel with
  | zero =>
    intro i start hm v out hi hs h
    exact funcFinish_out_le s l start hm v out hs h
  | succ fuel ih =>
    intro i start hm v out hi hs h
    rw [funcLoop] at h
    split at h
    next h1 =>
      split at h
      next e heq => simp at h
      next rest heq =>
        split at h
        next heq2 => simp at h
        next dv w heq2 =>
          have hrest : rest = s.drop i := by
            obtain ⟨-, -, hv⟩ := strSlice_ok_facts s i s.length rest heq
            rw [hv]
            apply List.take_of_length_le
            simp
          have hw : 0 < w ∧ w ≤ rest.length := decodeCharAt_width rest dv w heq2
          have hiw : i + w ≤ l := by
            have : rest.length = s.length - i := by rw [hrest]; simp
            omega
          split at h
          next h2 =>
            split at h
            next hhm =>
              split at h
              next e heq3 => simp at h
              next seg heq3 =>
                simp at h
                omega
            next hhm => exact ih _ _ _ _ _ hiw hiw h
          next h2 =>
            split at h
            next h3 => exact ih _ _ _ _ _ hiw (by omega) h
            next h3 => exact ih _ _ _ _ _ hiw hs h
    next h1 => exact funcFinish_out_le s l start hm v out hs h

/-- **C7** (amended): after construction and after reset both cursors are 0;
every successful pull on the predicate iterator keeps `cursor ≤ length`
(exhaustion is `cursor = length`); every successful pull on the literal
splitter keeps `cursor ≤ 2·length + 1` — the trailing-segment update
`start += l` can push the cursor past `length + 1`, so `length + 1` is not the
sole exhausted value (any cursor above `length` is exhausted). -/
theorem cursor_bounds :
    ∀ (s nd : List Nat) (f : Char → Bool) (it it' : SubstrIterator)
      (ft ft' : FuncIterator) (r1 r2 : Option (List Nat)),
      (substr_iter s nd).start = 0 ∧ (func_iter s f).start = 0 ∧
      it.reset.start = 0 ∧ ft.reset.start = 0 ∧
      (it.l = it.s.length → it.start ≤ 2 * it.l + 1 →
        it.next = Except.ok (r1, it') → it'.start ≤ 2 * it.l + 1) ∧
      (ft.l = ft.s.length → ft.start ≤ ft.l →
        ft.next = Except.ok (r2, ft') → ft'.start ≤ ft.l) := by
  intro s nd f it it' ft ft' r1 r2
  refine ⟨rfl, rfl, rfl, rfl, ?_, ?_⟩
  · intro hwf hb h
    unfold SubstrIterator.next at h
    split at h
    next h1 =>
      simp at h
      rw [← h.2]
      omega
    next h1 =>
      split at h
      next h2 =>
        unfold SubstrIterator.next_char at h
        split at h
        next h5 =>
          simp at h
          rw [← h.2]
          omega
        next h5 =>
          split at h
          next e heq => simp at h
          next rest heq =>
            split at h
            next heq2 => simp at h
            next dv w heq2 =>
              split at h
              next e heq3 => simp at h
              next v2 heq3 =>
                simp at h
                rw [← h.2]
                obtain ⟨-, hle, -⟩ := strSlice_ok_facts it.s it.start (it.start + w) v2 heq3
                simp only
                omega
      next h2 =>
        split at h
        next h3 =>
          split at h
          next h4 =>
            simp at h
            rw [← h.2]
            omega
          next h4 =>
            simp at h
            rw [← h.2]
            show it.l + 1 ≤ 2 * it.l + 1
            omega
        next h3 =>
          split at h
          next e heq => simp at h
          next r st' heq =>
            simp at h
            rw [← h.2]
            simp only
            exact substrLoop_out_le it.s it.needle it.l it.needle_len it.emit_all
              _ it.start it.start false r st' (by omega) (by simp) heq
  · intro hwf hb h
    unfold FuncIterator.next at h
    split at h
    next h1 =>
      simp at h
      rw [← h.2]
      omega
    next h1 =>
      split at h
      next e heq => simp at h
      next r st' heq =>
        simp at h
        rw [← h.2]
        simp only
        exact funcLoop_out_le ft.f ft.s ft.l hwf _ ft.start ft.start false r st'
          hb hb heq

/-- Witness for `cursor_bounds` at the `"x ab"` / `" "` iterator mid-stream:
the second pull advances the cursor from 2 to 6 ≤ 2·4 + 1, and a pull on a
predicate iterator keeps the cursor within the length. -/
theorem cursor_bounds_witness :
    SubstrIterator.start
      ⟨[120, 32, 97, 98], [32], 4, 1, 6, false⟩ ≤ 2 * 4 + 1 ∧
    FuncIterator.start ⟨fun _ => false, [97], 1, 1⟩ ≤ 1 := by
  constructor
  · exact (cursor_bounds [120, 32, 97, 98] [32] (fun _ => false)
      ⟨[120, 32, 97, 98], [32], 4, 1, 2, false⟩
      ⟨[120, 32, 97, 98], [32], 4, 1, 6, false⟩
      ⟨fun _ => false, [97], 1, 0⟩ ⟨fun _ => false, [97], 1, 1⟩
      (some [97, 98]) (some [97])).2.2.2.2.1 rfl (by decide) (by decide)
  · exact (cursor_bounds [120, 32, 97, 98] [32] (fun _ => false)
      ⟨[120, 32, 97, 98], [32], 4, 1, 2, false⟩
      ⟨[120, 32, 97, 98], [32], 4, 1, 6, false⟩
      ⟨fun _ => false, [97], 1, 0⟩ ⟨fun _ => false, [97], 1, 1⟩
      (some [97, 98]) (some [97])).2.2.2.2.2 rfl (by decide) (by rfl)

/-! ## C8: exhaustion is idempotent -/

theorem substrLoop_hm_not_none (s needle : List Nat) (l nl : Nat) (ea : Bool) :
    ∀ (fuel i start : Nat) (out : Nat),
    substrLoop s needle l nl ea fuel i start true ≠ Except.ok (none, out) := by
  intro fuel
  induction fuel with
  | zero =>
    intro i start out h
    rw [substrLoop] at h
    unfold substrFinish at h
    rw [if_neg (by simp)] at h
    split at h
    next e heq => simp at h
    next v2 heq => simp at h
  | succ fuel ih =>
    intro i start out h
    rw [substrLoop] at h
    split at h
    next h1 =>
      split at h
      next e heq => simp at h
      next seg heq =>
        split at h
        next h2 =>
          split at h
          next hhm => exact ih _ _ _ h
          next hhm => simp at hhm
        next h2 =>
          split at h
          next h3 => simp at h3
          next h3 =>
            split at h
            next e heq2 => simp at h
            next v2 heq2 => simp at h
    next h1 =>
      unfold substrFinish at h
      rw [if_neg (by simp)] at h
      split at h
      next e heq => simp at h
      next v2 heq => simp at h

theorem substrLoop_none_default (s needle : List Nat) (l nl : Nat) :
    ∀ (fuel i start out : Nat), l ≤ fuel + i →
    substrLoop s needle l nl false fuel i start false = Except.ok (none, out) →
    (out = start ∧ ¬ (i < l ∧ i + nl ≤ l)) ∨
    (out < l ∧ out + nl ≤ l ∧ strSlice s out (out + nl) = Except.ok needle ∧
      ¬ (out + 1 < l ∧ out + 1 + nl ≤ l)) := by
  intro fuel
  induction fuel with
  | zero =>
    intro i start out hfi h
    rw [substrLoop] at h
    unfold substrFinish at h
    rw [if_pos (by simp)] at h
    rw [if_pos (by simp)] at h
    simp at h
    exact Or.inl ⟨h.symm, by omega⟩
  | succ fuel ih =>
    intro i start out hfi h
    rw [substrLoop] at h
    split at h
    next h1 =>
      split at h
      next e heq => simp at h
      next seg heq =>
        split at h
        next h2 =>
          split at h
          next hhm => simp at hhm
          next hhm => exact absurd h (substrLoop_hm_not_none s needle l nl false fuel (i + 1) i out)
        next h2 =>
          split at h
          next h3 =>
            have hseg : seg = needle := by
              by_contra hc
              exact h2 hc
            rcases ih (i + 1) i out (by omega) h with hl | hr
            · obtain ⟨rfl, hng⟩ := hl
              exact Or.inr ⟨h1.1, h1.2, by rw [heq, hseg], hng⟩
            · exact Or.inr hr
          next h3 => simp at h3
    next h1 =>
      unfold substrFinish at h
      rw [if_pos (by simp)] at h
      rw [if_pos (by simp)] at h
      simp at h
      exact Or.inl ⟨h.symm, h1⟩

theorem substrLoop_none_all (s needle : List Nat) (l nl : Nat) :
    ∀ (fuel i start out : Nat), l ≤ fuel + i →
    substrLoop s needle l nl true fuel i start false = Except.ok (none, out) →
    out = start ∧ ¬ (i < l ∧ i + nl ≤ l) ∧
      substrFinish s needle l nl true start false = Except.ok (none, out) := by
  intro fuel
  induction fuel with
  | zero =>
    intro i start out hfi h
    rw [substrLoop] at h
    refine ⟨?_, by omega, h⟩
    unfold substrFinish at h
    rw [if_pos (by simp)] at h
    rw [if_neg (by simp)] at h
    split at h
    next h3 => simp at h
    next h3 =>
      split at h
      next e heq => simp at h
      next suf heq =>
        split at h
        next h4 =>
          simp at h
          exact h.symm
        next h4 =>
          split at h
          next e heq2 => simp at h
          next v2 heq2 => simp at h
  | succ fuel ih =>
    intro i start out hfi h
    rw [substrLoop] at h
    split at h
    next h1 =>
      split at h
      next e heq => simp at h
      next seg heq =>
        split at h
        next h2 =>
          split at h
          next hhm => simp at hhm
          next hhm =>
            exact absurd h (substrLoop_hm_not_none s needle l nl true fuel (i + 1) i out)
        next h2 =>
          split at h
          next h3 => simp at h3
          next h3 =>
            split at h
            next e heq2 => simp at h
            next v2 heq2 => simp at h
    next h1 =>
      refine ⟨?_, h1, h⟩
      unfold substrFinish at h
      rw [if_pos (by simp)] at h
      rw [if_neg (by simp)] at h
      split at h
      next h3 => simp at h
      next h3 =>
        split at h
        next e heq => simp at h
        next suf heq =>
          split at h
          next h4 =>
            simp at h
            exact h.symm
          next h4 =>
            split at h
            next e heq2 => simp at h
            next v2 heq2 => simp at h

theorem funcLoop_hm_none (f : Char → Bool) (s : List Nat) (l : Nat) :
    ∀ (fuel i start out : Nat),
    funcLoop f s l fuel i start true = Except.ok (none, out) →
    l ≤ start ∧ out = start := by
  intro fuel
  induction fuel with
  | zero =>
    intro i start out h
    rw [funcLoop] at h
    unfold funcFinish at h
    split at h
    next h1 =>
      split at h
      next e heq => simp at h
      next v2 heq => simp at h
    next h1 =>
      simp at h
      simp at h1
      exact ⟨h1, h.symm⟩
  | succ fuel ih =>
    intro i start out h
    rw [funcLoop] at h
    split at h
    next h1 =>
      split at h
      next e heq => simp at h
      next rest heq =>
        split at h
        next heq2 => simp at h
        next dv w heq2 =>
          split at h
          next h2 =>
            split at h
            next hhm =>
              split at h
              next e heq3 => simp at h
              next seg heq3 => simp at h
            next hhm => simp at hhm
          next h2 =>
            split at h
            next h3 => simp at h3
            next h3 => exact ih _ _ _ h
    next h1 =>
      unfold funcFinish at h
      split at h
      next h4 =>
        split at h
        next e heq => simp at h
        next v2 heq => simp at h
      next h4 =>
        simp at h
        simp at h4
        exact ⟨h4, h.symm⟩

theorem funcLoop_none_start (f : Char → Bool) (s : List Nat) (l : Nat) :
    ∀ (fuel i start out : Nat), l ≤ fuel + i →
    funcLoop f s l fuel i start false = Except.ok (none, out) →
    (out = start ∧ l ≤ i) ∨ l ≤ out := by
  intro fuel
  induction fuel with
  | zero =>
    intro i start out hfi h
    rw [funcLoop] at h
    unfold funcFinish at h
    rw [if_neg (by simp)] at h
    simp at h
    exact Or.inl ⟨h.symm, by omega⟩
  | succ fuel ih =>
    intro i start out hfi h
    rw [funcLoop] at h
    split at h
    next h1 =>
      split at h
      next e heq => simp at h
      next rest heq =>
        split at h
        next heq2 => simp at h
        next dv w heq2 =>
          have hw : 0 < w ∧ w ≤ rest.length := decodeCharAt_width rest dv w heq2
          split at h
          next h2 =>
            split at h
            next hhm => simp at hhm
            next hhm =>
              rcases ih (i + w) (i + w) out (by omega) h with hl | hr
              · exact Or.inr (by omega)
              · exact Or.inr hr
          next h2 =>
            split at h
            next h3 =>
              have := (funcLoop_hm_none f s l fuel (i + w) i out h).1
              omega
            next h3 => simp at h3
    next h1 =>
      unfold funcFinish at h
      rw [if_neg (by simp)] at h
      simp at h
      exact Or.inl ⟨h.symm, by omega⟩

/-- **C8**: for both iterators, in every configuration and mode, once a pull
returns the exhausted sentinel, every further pull without an intervening
reset returns the exhausted sentinel again (and leaves the state unchanged). -/
theorem exhaustion_idempotent :
    ∀ (it it' : SubstrIterator) (ft ft' : FuncIterator),
      (it.next = Except.ok (none, it') → it'.next = Except.ok (none, it')) ∧
      (ft.next = Except.ok (none, ft') → ft'.next = Except.ok (none, ft')) := by
  intro it it' ft ft'
  constructor
  · intro h
    unfold SubstrIterator.next at h
    split at h
    next h1 =>
      simp at h
      rcases h with rfl
      unfold SubstrIterator.next
      rw [if_pos h1]
    next h1 =>
      split at h
      next h2 =>
        unfold SubstrIterator.next_char at h
        split at h
        next h5 =>
          simp at h
          rcases h with rfl
          unfold SubstrIterator.next
          rw [if_neg h1, if_pos h2]
          unfold SubstrIterator.next_char
          rw [if_pos h5]
        next h5 =>
          split at h
          next e heq => simp at h
          next rest heq =>
            split at h
            next heq2 => simp at h
            next dv w heq2 =>
              split at h
              next e heq3 => simp at h
              next v2 heq3 => simp at h
      next h2 =>
        split at h
        next h3 =>
          split at h
          next h4 =>
            simp at h
            rcases h with rfl
            unfold SubstrIterator.next
            rw [if_neg h1, if_neg h2, if_pos h3, if_pos h4]
          next h4 => simp at h
        next h3 =>
          split at h
          next e heq => simp at h
          next r st' heq =>
            rcases r with - | v2
            · simp at h
              rcases h with rfl
              have hsle : it.start ≤ it.l := by omega
              cases hea : it.emit_all with
              | false =>
                rw [hea] at heq
                rcases substrLoop_none_default it.s it.needle it.l it.needle_len
                    (it.l - it.start) it.start it.start st' (by omega) heq
                  with ⟨rfl, hng⟩ | ⟨hlt, hnle, hslice, hng⟩
                · unfold SubstrIterator.next
                  rw [if_neg (by simpa using h1), if_neg (by simpa using h2),
                    if_neg (by simpa using h3)]
                  simp only
                  rw [substrLoop_at_end _ _ _ _ _ _ _ _ _ hng]
                  unfold substrFinish
                  rw [if_pos (by simp), if_pos (by simp)]
                · unfold SubstrIterator.next
                  rw [if_neg (by simp only; omega), if_neg (by simpa using h2),
                    if_neg (by simpa using h3)]
                  simp only
                  obtain ⟨k, hk⟩ : ∃ k, it.l - st' = k + 1 := ⟨it.l - st' - 1, by omega⟩
                  rw [hk]
                  have hstep : substrLoop it.s it.needle it.l it.needle_len false
                      (k + 1) st' st' false =
                      substrLoop it.s it.needle it.l it.needle_len false k
                        (st' + 1) st' false := by
                    rw [substrLoop, if_pos ⟨hlt, hnle⟩, hslice]
                    simp
                  rw [hstep]
                  rw [substrLoop_at_end _ _ _ _ _ _ _ _ _ hng]
                  unfold substrFinish
                  rw [if_pos (by simp), if_pos (by simp)]
              | true =>
                rw [hea] at heq
                obtain ⟨rfl, hng, hfin⟩ := substrLoop_none_all it.s it.needle
                  it.l it.needle_len (it.l - it.start) it.start it.start st'
                  (by omega) heq
                unfold SubstrIterator.next
                rw [if_neg (by simpa using h1), if_neg (by simpa using h2),
                  if_neg (by simpa using h3)]
                simp only
                rw [substrLoop_at_end _ _ _ _ _ _ _ _ _ hng]
                rw [hfin]
            · simp at h
  · intro h
    unfold FuncIterator.next at h
    split at h
    next h1 =>
      simp at h
      rcases h with rfl
      unfold FuncIterator.next
      rw [if_pos h1]
    next h1 =>
      split at h
      next e heq => simp at h
      next r st' heq =>
        rcases r with - | v2
        · simp at h
          rcases h with rfl
          rcases funcLoop_none_start ft.f ft.s ft.l (ft.l - ft.start) ft.start
              ft.start st' (by omega) heq with ⟨rfl, hli⟩ | hlo
          · -- the cursor was already at or past the end
            unfold FuncIterator.next
            rw [if_neg (by simpa using h1)]
            simp only
            have hz : ft.l - ft.start = 0 := by omega
            rw [hz]
            rw [funcLoop]
            unfold funcFinish
            rw [if_neg (by simp)]
          · by_cases hout : st' = ft.l
            · unfold FuncIterator.next
              rw [if_pos (by simpa using hout)]
            · unfold FuncIterator.next
              rw [if_neg (by simpa using hout)]
              simp only
              have hz : ft.l - st' = 0 := by omega
              rw [hz]
              rw [funcLoop]
              unfold funcFinish
              rw [if_neg (by simp)]
        · simp at h

/-- Witness for `exhaustion_idempotent`: the default-mode iterator over `"aaa"`
with needle `"aa"` exhausts on the first pull (leaving the cursor at 1), and
repeated pulls stay exhausted; likewise for an all-separator predicate
iterator. -/
theorem exhaustion_idempotent_witness :
    SubstrIterator.next ⟨[97, 97, 97], [97, 97], 3, 2, 1, false⟩ =
      Except.ok (none, ⟨[97, 97, 97], [97, 97], 3, 2, 1, false⟩) ∧
    FuncIterator.next ⟨fun _ => true, [97], 1, 1⟩ =
      Except.ok (none, ⟨fun _ => true, [97], 1, 1⟩) := by
  constructor
  · exact (exhaustion_idempotent ⟨[97, 97, 97], [97, 97], 3, 2, 0, false⟩
      ⟨[97, 97, 97], [97, 97], 3, 2, 1, false⟩
      ⟨fun _ => true, [97], 1, 0⟩ ⟨fun _ => true, [97], 1, 1⟩).1 (by decide)
  · exact (exhaustion_idempotent ⟨[97, 97, 97], [97, 97], 3, 2, 0, false⟩
      ⟨[97, 97, 97], [97, 97], 3, 2, 1, false⟩
      ⟨fun _ => true, [97], 1, 0⟩ ⟨fun _ => true, [97], 1, 1⟩).2 (by rfl)
